import Mathlib

/-!
Shallow embedding of the disassembly reduction engine of
`run_cpp_compilers.py`.

A text line is represented as a `List Char` holding the line's content.
(The Python code receives lines from `readlines()`, i.e. with a trailing
newline; since every regular expression in the source is `$`-anchored and
`$` matches just before a final newline, the trailing newline is invisible
to all captures, so we model lines by their newline-free content.)

The Python `re` patterns are embedded by their match semantics:

* `parse_instruction` uses `^\s*(\S+):\s+(\S+)\s*(.*?)$` (via `re.search`,
  which the `^` anchors to the line start).  Backtracking analysis: after
  the leading whitespace, `(\S+):` can only succeed with the colon being
  the last character of the maximal non-whitespace run (any earlier colon
  inside the run is followed by a non-whitespace character, so the
  mandatory `\s+` after it fails), group 1 is that run without its final
  colon; `\s+` then eats the (maximal) whitespace run, group 2 is the next
  maximal non-whitespace run, `\s*` eats the following whitespace, and the
  lazy `(.*?)$` captures the entire remainder of the line.
* `get_function_definitions` matches headers with `^(.*):\s*$`: the line,
  with trailing whitespace removed, must end in a colon; the greedy `.*`
  makes group 1 everything before that last colon.
* the decoration pattern `^(\S+)\s+\(.*\)$` matches when the name starts
  with a maximal non-whitespace token followed by at least one whitespace
  character, then a literal `(` and a final literal `)`.

Python-semantics notes baked into the embedding:

* integers are immutable and passed by value, so the
  `next_label_index += 1` inside `get_cleaned_function` never reaches the
  caller; `get_cleaned_functions` therefore passes the unchanged value 0
  to every call (this is modelled faithfully, see
  `cleaned_functions_loop`);
* `lines[i]` on an out-of-range index and attribute access on a `None`
  parse result raise exceptions; both are modelled by `Option`, `none`
  meaning "the Python code raises";
* the recursion in `get_used_functions` is modelled with explicit fuel;
  fuel exhaustion also yields `none`, and `used_fuel_sufficient` below
  shows the canonical fuel used by the wrapper never runs out on inputs
  on which the Python code terminates normally.
-/

namespace RunCpp

abbrev Line := List Char

/-- ASCII semantics of the regex class `\s`. -/
def isSpace (c : Char) : Bool :=
  c = ' ' || c = '\t' || c = '\n' || c = '\r' || c = '\x0b' || c = '\x0c'

structure Instruction where
  byte_offset : Line
  operation : Line
  operands : Line
deriving DecidableEq, Repr

structure CleanedInstruction where
  label : Option Line
  operation : Line
  operands : Line
deriving DecidableEq, Repr

structure FunctionDefinition where
  name : Line
  line_start_index : Nat
  line_count : Nat
deriving DecidableEq, Repr

structure CleanedFunction where
  name : Line
  instructions : List CleanedInstruction
deriving DecidableEq, Repr

/-- `parse_instruction` (source lines 26-31): match semantics of
`re.search('^\s*(\S+):\s+(\S+)\s*(.*?)$', line)` as derived in the header
comment. -/
def parse_instruction (line : Line) : Option Instruction :=
  let t := line.dropWhile isSpace
  let run := t.takeWhile fun c => !isSpace c
  let rest := t.dropWhile fun c => !isSpace c
  if 2 ≤ run.length ∧ run.getLast? = some ':' ∧ rest ≠ [] then
    let afterWs := rest.dropWhile isSpace
    let mn := afterWs.takeWhile fun c => !isSpace c
    if mn = [] then none
    else some ⟨run.dropLast, mn, (afterWs.dropWhile fun c => !isSpace c).dropWhile isSpace⟩
  else none

/-- Header pattern `^(.*):\s*$` (source line 39): after removing trailing
whitespace the line must end in `:`; group 1 is everything before that
colon. -/
def header_name (line : Line) : Option Line :=
  match line.reverse.dropWhile isSpace with
  | ':' :: restRev => some restRev.reverse
  | _ => none

/-- Decoration pattern `^(\S+)\s+\(.*\)$` (source lines 45-47): when the
header text is `shortName (signature)`, only `shortName` is kept. -/
def short_name (function_name : Line) : Line :=
  let tok := function_name.takeWhile fun c => !isSpace c
  let rest2 := (function_name.dropWhile fun c => !isSpace c).dropWhile isSpace
  if tok ≠ [] ∧ rest2.head? = some '(' ∧ function_name.getLast? = some ')' then tok
  else function_name

def isInstructionLine (line : Line) : Bool :=
  (parse_instruction line).isSome

/-- Number of consecutive instruction lines starting at index `i`
(the inner `while` of `get_function_definitions`). -/
def countInstr (lines : List Line) (i : Nat) : Nat :=
  ((lines.drop i).takeWhile isInstructionLine).length

/-- The scan loop of `get_function_definitions` (source lines 38-60),
started at line index `i`.  On a header at `i` the body is the maximal
instruction run starting at `i + 1`; if that run is closed by a
non-instruction line at index `j < lines.length` the definition
`(short_name, i, j - i)` is recorded and the scan resumes at `j + 1`
(the outer `line_index += 1` after the inner `break` skips the closing
line); if the run reaches the end of input the inner `while` exits
without recording and the scan terminates.  `fuel` bounds the number of
loop steps; since every step advances `i`, any `fuel ≥ lines.length - i`
reproduces the `while` loop exactly (`scanGo_fuel_irrelevant`). -/
def scanGo (lines : List Line) : Nat → Nat → List FunctionDefinition
  | 0, _ => []
  | fuel + 1, i =>
    match lines[i]? with
    | none => []
    | some l =>
      match header_name l with
      | none => scanGo lines fuel (i + 1)
      | some fn =>
        if i + 1 + countInstr lines (i + 1) < lines.length then
          ⟨short_name fn, i, countInstr lines (i + 1) + 1⟩ ::
            scanGo lines fuel (i + 1 + countInstr lines (i + 1) + 1)
        else []

/-- `get_function_definitions` (source lines 33-62). -/
def get_function_definitions (lines : List Line) : List FunctionDefinition :=
  scanGo lines lines.length 0

/-- `find_function_definition` (source lines 64-65): first definition with
the given name. -/
def find_function_definition (function_definitions : List FunctionDefinition)
    (name : Line) : Option FunctionDefinition :=
  function_definitions.find? fun d => d.name == name

/-- The `for line_index in range(...)` body scan of `get_used_functions`
(source lines 74-77): parse each body line in order; on
`operation == 'call'`, run `visit` (the recursive resolution of the
single-element batch `[operands]`) on the accumulated list.  A failed
index access or parse is the Python exception, mapped to `none`. -/
def body_fold (lines : List Line)
    (visit : List FunctionDefinition → Line → Option (List FunctionDefinition)) :
    List FunctionDefinition → List Nat → Option (List FunctionDefinition)
  | u, [] => some u
  | u, k :: rest =>
    match lines[k]? with
    | none => none
    | some l =>
      match parse_instruction l with
      | none => none
      | some inst =>
        if inst.operation = 'c' :: 'a' :: 'l' :: 'l' :: [] then
          match visit u inst.operands with
          | none => none
          | some u' => body_fold lines visit u' rest
        else body_fold lines visit u rest

/-- `get_used_functions` (source lines 67-77): the
`for current_function_name in current_function_names` loop, with the
mutable `used_functions` list threaded through (returned instead of
mutated in place).  A name already present in `used_functions` triggers
the `return`, abandoning the rest of the batch.  The recursion is
bounded by `fuel`, consumed once per processed name; since each body
entry removes at least one definition from the not-yet-used set,
`names.length + 2 * defs.length` fuel always suffices
(`used_fuel_sufficient` below), so the wrapper in `write_cleaned_disasm`
reproduces the Python recursion exactly on all inputs on which Python
terminates normally. -/
def get_used_functions (lines : List Line) (defs : List FunctionDefinition) :
    Nat → List FunctionDefinition → List Line → Option (List FunctionDefinition)
  | _, used, [] => some used
  | fuel, used, n :: rest =>
    if (find_function_definition used n).isSome then some used
    else
      match find_function_definition defs n with
      | none =>
        match fuel with
        | 0 => none
        | fuel' + 1 => get_used_functions lines defs fuel' used rest
      | some d =>
        match fuel with
        | 0 => none
        | fuel' + 1 =>
          match body_fold lines (fun u op => get_used_functions lines defs fuel' u [op])
              (used ++ [d]) (List.range' (d.line_start_index + 1) (d.line_count - 1)) with
          | none => none
          | some u' => get_used_functions lines defs fuel' u' rest

/-- The canonical fuel for one run of the resolver. -/
def used_fuel (defs : List FunctionDefinition) (roots : List Line) : Nat :=
  roots.length + 2 * defs.length

/-- `is_jump` (source lines 79-80): `operation.startswith('j')`. -/
def is_jump (operation : Line) : Bool :=
  operation.head? = some 'j'

/-- The f-string `f'$L{next_label_index}'` (source line 103). -/
def labelString (n : Nat) : Line :=
  '$' :: 'L' :: (Nat.repr n).toList

/-- First loop of `get_cleaned_function` (source lines 83-87): build the
(raw, cleaned) pair per body line, label unset, operands copied. -/
def build_pairs (lines : List Line) :
    List Nat → Option (List (Instruction × CleanedInstruction))
  | [] => some []
  | k :: rest =>
    match lines[k]? with
    | none => none
    | some l =>
      match parse_instruction l with
      | none => none
      | some inst =>
        match build_pairs lines rest with
        | none => none
        | some ps => some ((inst, ⟨none, inst.operation, inst.operands⟩) :: ps)

/-- The inner target search of `get_cleaned_function` (source lines
93-95): first pair whose raw `byte_offset` equals the jump operand. -/
def find_target (pairs : List (Instruction × CleanedInstruction))
    (off : Line) : Option Nat :=
  match pairs with
  | [] => none
  | p :: rest =>
    if p.1.byte_offset == off then some 0
    else (find_target rest off).map (· + 1)

/-- One iteration of the rewriting loop of `get_cleaned_function`
(source lines 88-112) at position `index`.  Note the two `list.__setitem__`
calls happen in source order, so for a self-jump (`index = target`) the
second assignment overwrites the operand rewrite of the first. -/
def rewrite_step (pairs : List (Instruction × CleanedInstruction))
    (nli : Nat) (index : Nat) :
    List (Instruction × CleanedInstruction) × Nat :=
  match pairs[index]? with
  | none => (pairs, nli)
  | some (raw, oldCleaned) =>
    if is_jump raw.operation then
      match find_target pairs raw.operands with
      | none => (pairs, nli)
      | some tIdx =>
        match pairs[tIdx]? with
        | none => (pairs, nli)
        | some (rawT, oldCleanedT) =>
          match oldCleanedT.label with
          | some lab =>
            ((pairs.set index (raw, ⟨oldCleaned.label, oldCleaned.operation, lab⟩)).set
              tIdx (rawT, oldCleanedT), nli)
          | none =>
            let lab := labelString nli
            ((pairs.set index (raw, ⟨oldCleaned.label, oldCleaned.operation, lab⟩)).set
              tIdx (rawT, ⟨some lab, oldCleanedT.operation, oldCleanedT.operands⟩), nli + 1)
    else (pairs, nli)

/-- The `for index in range(len(instruction_pairs))` loop of
`get_cleaned_function`. -/
def rewrite_loop (pairs : List (Instruction × CleanedInstruction)) (nli : Nat) :
    List Nat → List (Instruction × CleanedInstruction) × Nat
  | [] => (pairs, nli)
  | i :: rest =>
    let s := rewrite_step pairs nli i
    rewrite_loop s.1 s.2 rest

/-- `get_cleaned_function` (source lines 82-114).  The incremented
`next_label_index` is local to the call (a Python `int` argument), so it
is dropped on return, exactly as in the source. -/
def get_cleaned_function (lines : List Line) (function : FunctionDefinition)
    (next_label_index : Nat) : Option CleanedFunction :=
  match build_pairs lines
      (List.range' (function.line_start_index + 1) (function.line_count - 1)) with
  | none => none
  | some pairs =>
    some ⟨function.name, ((rewrite_loop pairs next_label_index
      (List.range pairs.length)).1).map fun p => p.2⟩

/-- The `for functionDefinition in function_definitions` loop of
`get_cleaned_functions` (source lines 120-123).  `next_label_index` is the
caller's variable: it is passed (by value) to every `get_cleaned_function`
call and never reassigned in the loop, so the same value reaches each
call. -/
def cleaned_functions_loop (lines : List Line) (used : List FunctionDefinition)
    (next_label_index : Nat) :
    List FunctionDefinition → Option (List CleanedFunction)
  | [] => some []
  | fd :: rest =>
    match find_function_definition used fd.name with
    | none => cleaned_functions_loop lines used next_label_index rest
    | some f =>
      match get_cleaned_function lines f next_label_index with
      | none => none
      | some cf =>
        match cleaned_functions_loop lines used next_label_index rest with
        | none => none
        | some cfs => some (cf :: cfs)

/-- `get_cleaned_functions` (source lines 116-124): `next_label_index = 0`
once, before the loop. -/
def get_cleaned_functions (lines : List Line)
    (function_definitions used_functions : List FunctionDefinition) :
    Option (List CleanedFunction) :=
  cleaned_functions_loop lines used_functions 0 function_definitions

/-- Rendering of one cleaned instruction (source lines 128-134); a label
line is emitted when the label string is truthy (non-`None` and
non-empty). -/
def write_cleaned_instruction (inst : CleanedInstruction) : Line :=
  (match inst.label with
   | some lab => if lab ≠ [] then lab ++ [':', '\n'] else []
   | none => []) ++
  ' ' :: ' ' :: inst.operation ++
  List.replicate (12 - inst.operation.length) ' ' ++ inst.operands ++ ['\n']

/-- `write_cleaned_function` (source lines 126-135). -/
def write_cleaned_function (cf : CleanedFunction) : Line :=
  cf.name ++ [':', '\n'] ++
  (cf.instructions.map write_cleaned_instruction).flatten ++ ['\n']

/-- `write_cleaned_disasm` (source lines 140-146): the whole core pipeline,
producing the rendered text. -/
def write_cleaned_disasm (lines : List Line) (root_function_names : List Line) :
    Option Line :=
  let definitions := get_function_definitions lines
  match get_used_functions lines definitions
      (used_fuel definitions root_function_names) [] root_function_names with
  | none => none
  | some used =>
    match get_cleaned_functions lines definitions used with
    | none => none
    | some cfs => some ((cfs.map write_cleaned_function).flatten)

/-! ### The Line Parser contract (claim C6)

`SpecInstructionMatch` is written from the spec's words in §4.1 and §6,
independently of the implementation: "optional leading whitespace, a
non-whitespace offset token, a colon, whitespace, a non-whitespace
mnemonic, optional whitespace, optional trailing operand text" anchored
to the full line. -/

def SpecInstructionMatch (line off mn ops : Line) : Prop :=
  ∃ w₁ w₂ w₃,
    line = w₁ ++ off ++ ':' :: (w₂ ++ (mn ++ (w₃ ++ ops))) ∧
    (∀ c ∈ w₁, isSpace c = true) ∧
    off ≠ [] ∧ (∀ c ∈ off, isSpace c = false) ∧
    w₂ ≠ [] ∧ (∀ c ∈ w₂, isSpace c = true) ∧
    mn ≠ [] ∧ (∀ c ∈ mn, isSpace c = false) ∧
    (∀ c ∈ w₃, isSpace c = true)

def BodyOK (lines : List Line) (d : FunctionDefinition) : Prop :=
  ∀ k, d.line_start_index + 1 ≤ k → k < d.line_start_index + d.line_count →
    ∃ l, lines[k]? = some l ∧ (parse_instruction l).isSome = true

/-! ### Spec-side definitions for the Reachability Resolver claims -/

/-- `true` iff some entry of `used` has the given name. -/
def hasName (used : List FunctionDefinition) (n : Line) : Bool :=
  (find_function_definition used n).isSome

/-- Number of definitions whose name is not yet in `used`; the measure
that shrinks each time the resolver enters a body. -/
def remaining (defs used : List FunctionDefinition) : Nat :=
  defs.countP fun d => !(find_function_definition used d.name).isSome

/-- The `call` operands named by the instruction lines at the given
indices, in order (skipping unreadable lines; on a successful
`body_fold` run no line is unreadable). -/
def opsOf (lines : List Line) : List Nat → List Line
  | [] => []
  | k :: rest =>
    match lines[k]? with
    | none => opsOf lines rest
    | some l =>
      match parse_instruction l with
      | none => opsOf lines rest
      | some inst =>
        if inst.operation = 'c' :: 'a' :: 'l' :: 'l' :: [] then
          inst.operands :: opsOf lines rest
        else opsOf lines rest

/-- The `call` operands of the body of `d`. -/
def calleesOf (lines : List Line) (d : FunctionDefinition) : List Line :=
  opsOf lines (List.range' (d.line_start_index + 1) (d.line_count - 1))

/-- One `call` edge: the (first) definition named `n` contains a `call`
whose operand text is `m`. -/
def CallStep (lines : List Line) (defs : List FunctionDefinition) (n m : Line) : Prop :=
  ∃ d, find_function_definition defs n = some d ∧ m ∈ calleesOf lines d

/-- Reachability from `n` to `m` by a finite chain of `call` edges. -/
def Reach (lines : List Line) (defs : List FunctionDefinition) : Line → Line → Prop :=
  Relation.ReflTransGen (CallStep lines defs)

/-- Invariant of the label-rewriting loop of `get_cleaned_function`
after the indices `0, ..., k-1` have been processed, relative to the
initial pair list `ps₀`: lengths and raw instructions never change,
cleaned operations never change, unprocessed (or non-jump, or
unresolved-jump) positions keep their raw operand text, every processed
resolved jump at `m` targeting `t` sees a label on `t` and (unless it is
its own target, in which case the operand survives unrewritten) has its
operand rewritten to that label, and every label present was placed on
the target of some already-processed resolved jump. -/
def RewriteGood (ps₀ : List (Instruction × CleanedInstruction)) (k : Nat)
    (ps : List (Instruction × CleanedInstruction)) : Prop :=
  ps.length = ps₀.length ∧
  ps.map (fun p => p.1) = ps₀.map (fun p => p.1) ∧
  (∀ (m : Nat) (p : Instruction × CleanedInstruction), ps[m]? = some p →
    p.2.operation = p.1.operation) ∧
  (∀ (m : Nat) (p : Instruction × CleanedInstruction), ps[m]? = some p →
    (k ≤ m ∨ is_jump p.1.operation = false ∨ find_target ps₀ p.1.operands = none) →
    p.2.operands = p.1.operands) ∧
  (∀ (m : Nat) (p : Instruction × CleanedInstruction) (t : Nat),
    m < k → ps[m]? = some p → is_jump p.1.operation = true →
    find_target ps₀ p.1.operands = some t →
    ∃ pt ℓ, ps[t]? = some pt ∧ pt.2.label = some ℓ ∧
      (m ≠ t → p.2.operands = ℓ) ∧ (m = t → p.2.operands = p.1.operands)) ∧
  (∀ (m : Nat) (p : Instruction × CleanedInstruction), ps[m]? = some p →
    p.2.label.isSome = true →
    ∃ j q, j < k ∧ ps[j]? = some q ∧ is_jump q.1.operation = true ∧
      find_target ps₀ q.1.operands = some m)

/-! ### List helper lemmas -/

theorem dropWhile_append_forall {p : Char → Bool} {w : Line} (r : Line)
    (h : ∀ c ∈ w, p c = true) : (w ++ r).dropWhile p = r.dropWhile p := by
  induction w with
  | nil => rfl
  | cons c w ih =>
    have hc : p c = true := h c (List.mem_cons_self ..)
    simp only [List.cons_append, List.dropWhile_cons_of_pos hc]
    exact ih fun x hx => h x (List.mem_cons_of_mem c hx)

theorem takeWhile_append_forall {p : Char → Bool} {w : Line} (r : Line)
    (h : ∀ c ∈ w, p c = true) : (w ++ r).takeWhile p = w ++ r.takeWhile p := by
  induction w with
  | nil => rfl
  | cons c w ih =>
    have hc : p c = true := h c (List.mem_cons_self ..)
    simp only [List.cons_append, List.takeWhile_cons_of_pos hc]
    rw [ih fun x hx => h x (List.mem_cons_of_mem c hx)]

theorem dropWhile_head_false {p : Char → Bool} {l r : Line} {c : Char}
    (h : l.dropWhile p = c :: r) : p c = false := by
  induction l with
  | nil => simp at h
  | cons a l ih =>
    by_cases ha : p a = true
    · rw [List.dropWhile_cons_of_pos ha] at h; exact ih h
    · rw [List.dropWhile_cons_of_neg ha] at h
      injection h with h1 _
      subst h1
      exact Bool.not_eq_true _ ▸ (eq_false_of_ne_true ha)

theorem eq_dropLast_concat {l : Line} {a : Char} (h : l.getLast? = some a) :
    l = l.dropLast ++ [a] := by
  cases l with
  | nil => simp at h
  | cons x xs =>
    have h2 := List.getLast?_eq_getLast (x :: xs) (by simp)
    rw [h2] at h
    injection h with h3
    rw [← h3]
    exact (List.dropLast_append_getLast (by simp)).symm

theorem forall_not_space_cons {c₀ : Char} {off' : Line}
    (hc₀ : isSpace c₀ = false) (hoffs : ∀ c ∈ off', isSpace c = false) :
    ∀ c ∈ c₀ :: off', (!isSpace c) = true := by
  intro c hc
  rcases List.mem_cons.mp hc with rfl | h
  · simp [hc₀]
  · simp [hoffs c h]

/-- Any line of the shape "spaces, token, colon, space, spaces, non-space
character, anything" parses successfully. -/
theorem parse_shape (w₁ off' w₂' rest₂ : Line) (c₀ d₀ m₀ : Char)
    (hw₁ : ∀ c ∈ w₁, isSpace c = true)
    (hc₀ : isSpace c₀ = false) (hoffs : ∀ c ∈ off', isSpace c = false)
    (hd₀ : isSpace d₀ = true) (hw₂s : ∀ c ∈ w₂', isSpace c = true)
    (hm₀ : isSpace m₀ = false) :
    (parse_instruction (w₁ ++ ((c₀ :: off') ++ ':' ::
      (d₀ :: (w₂' ++ m₀ :: rest₂))))).isSome := by
  have hoffP := forall_not_space_cons hc₀ hoffs
  have E1 : List.dropWhile isSpace (w₁ ++ ((c₀ :: off') ++ ':' ::
      (d₀ :: (w₂' ++ m₀ :: rest₂)))) =
      (c₀ :: off') ++ ':' :: (d₀ :: (w₂' ++ m₀ :: rest₂)) := by
    rw [dropWhile_append_forall _ hw₁]
    exact List.dropWhile_cons_of_neg (by simp [hc₀])
  have E2 : List.takeWhile (fun c => !isSpace c) ((c₀ :: off') ++ ':' ::
      (d₀ :: (w₂' ++ m₀ :: rest₂))) = (c₀ :: off') ++ [':'] := by
    rw [takeWhile_append_forall _ hoffP,
      List.takeWhile_cons_of_pos (by decide),
      List.takeWhile_cons_of_neg (by simp [hd₀])]
  have E3 : List.dropWhile (fun c => !isSpace c) ((c₀ :: off') ++ ':' ::
      (d₀ :: (w₂' ++ m₀ :: rest₂))) = d₀ :: (w₂' ++ m₀ :: rest₂) := by
    rw [dropWhile_append_forall _ hoffP,
      List.dropWhile_cons_of_pos (by decide)]
    exact List.dropWhile_cons_of_neg (by simp [hd₀])
  have E4 : List.dropWhile isSpace (d₀ :: (w₂' ++ m₀ :: rest₂)) =
      m₀ :: rest₂ := by
    rw [List.dropWhile_cons_of_pos hd₀, dropWhile_append_forall _ hw₂s]
    exact List.dropWhile_cons_of_neg (by simp [hm₀])
  simp only [parse_instruction, E1, E2, E3, E4]
  rw [if_pos ⟨by simp, List.getLast?_concat _, by simp⟩,
    List.takeWhile_cons_of_pos (by simp [hm₀])]
  simp

/-- Every line strictly inside the recorded extent of a definition parses
as an instruction (and is in range). -/
theorem parse_isSome_of_match {line off mn ops : Line}
    (h : SpecInstructionMatch line off mn ops) : (parse_instruction line).isSome := by
  obtain ⟨w₁, w₂, w₃, hline, hw₁, hoff, hoffs, hw₂, hw₂s, hmn, hmns, _⟩ := h
  obtain ⟨c₀, off', rfl⟩ : ∃ c₀ off', off = c₀ :: off' := by
    cases off with
    | nil => exact absurd rfl hoff
    | cons a l => exact ⟨a, l, rfl⟩
  obtain ⟨d₀, w₂', rfl⟩ : ∃ d₀ w₂', w₂ = d₀ :: w₂' := by
    cases w₂ with
    | nil => exact absurd rfl hw₂
    | cons a l => exact ⟨a, l, rfl⟩
  obtain ⟨m₀, mn', rfl⟩ : ∃ m₀ mn', mn = m₀ :: mn' := by
    cases mn with
    | nil => exact absurd rfl hmn
    | cons a l => exact ⟨a, l, rfl⟩
  subst hline
  have := parse_shape w₁ off' w₂' (mn' ++ (w₃ ++ ops)) c₀ d₀ m₀ hw₁
    (hoffs c₀ (by simp)) (fun c hc => hoffs c (by simp [hc]))
    (hw₂s d₀ (by simp)) (fun c hc => hw₂s c (by simp [hc]))
    (hmns m₀ (by simp))
  have heq : w₁ ++ ((c₀ :: off') ++ ':' :: (d₀ :: (w₂' ++ m₀ :: (mn' ++ (w₃ ++ ops))))) =
      w₁ ++ (c₀ :: off') ++ ':' :: (d₀ :: w₂' ++ (m₀ :: mn' ++ (w₃ ++ ops))) := by
    simp [List.append_assoc]
  rwa [heq] at this

theorem append_colon_cons (a b : Line) : a ++ ':' :: b = (a ++ [':']) ++ b := by
  simp

theorem match_of_parse {line : Line} {i : Instruction}
    (h : parse_instruction line = some i) :
    SpecInstructionMatch line i.byte_offset i.operation i.operands := by
  simp only [parse_instruction] at h
  split at h
  case isFalse => exact absurd h (by simp)
  case isTrue hcond =>
    obtain ⟨hlen, hlast, hne⟩ := hcond
    split at h
    case isTrue => exact absurd h (by simp)
    case isFalse hmn =>
      injection h with h
      subst h
      show SpecInstructionMatch line
        ((List.takeWhile (fun c => !isSpace c) (line.dropWhile isSpace)).dropLast)
        (List.takeWhile (fun c => !isSpace c)
          ((List.dropWhile (fun c => !isSpace c) (line.dropWhile isSpace)).dropWhile isSpace))
        (List.dropWhile isSpace (List.dropWhile (fun c => !isSpace c)
          ((List.dropWhile (fun c => !isSpace c) (line.dropWhile isSpace)).dropWhile isSpace)))
      refine ⟨line.takeWhile isSpace,
        (List.dropWhile (fun c => !isSpace c) (line.dropWhile isSpace)).takeWhile isSpace,
        (List.dropWhile (fun c => !isSpace c)
          ((List.dropWhile (fun c => !isSpace c) (line.dropWhile isSpace)).dropWhile
            isSpace)).takeWhile isSpace,
        ?_, ?_, ?_, ?_, ?_, ?_, ?_, ?_, ?_⟩
      · symm
        rw [List.append_assoc]
        rw [append_colon_cons
          ((List.takeWhile (fun c => !isSpace c) (line.dropWhile isSpace)).dropLast)]
        rw [← eq_dropLast_concat hlast]
        simp only [List.takeWhile_append_dropWhile]
      · exact fun c hc => List.mem_takeWhile_imp hc
      · intro hnil
        have := congrArg List.length (eq_dropLast_concat hlast)
        simp [hnil] at this
        omega
      · intro c hc
        have hmem : c ∈ (line.dropWhile isSpace).takeWhile fun c => !isSpace c := by
          rw [eq_dropLast_concat hlast]
          exact List.mem_append_left _ hc
        have := List.mem_takeWhile_imp hmem
        simpa using this
      · obtain ⟨r₀, rr, hr⟩ : ∃ r₀ rr, (line.dropWhile isSpace).dropWhile
            (fun c => !isSpace c) = r₀ :: rr := by
          cases hrr : (line.dropWhile isSpace).dropWhile fun c => !isSpace c with
          | nil => exact absurd hrr hne
          | cons a l => exact ⟨a, l, rfl⟩
        have hr₀ : isSpace r₀ = true := by
          have := dropWhile_head_false hr
          simpa using this
        rw [hr, List.takeWhile_cons_of_pos hr₀]
        simp
      · exact fun c hc => List.mem_takeWhile_imp hc
      · exact hmn
      · intro c hc
        have := List.mem_takeWhile_imp hc
        simpa using this
      · exact fun c hc => List.mem_takeWhile_imp hc

/-- C6: the Line Parser returns `some` exactly on the lines matching the
spec's pattern "optional leading whitespace, a non-whitespace offset
token, a colon, whitespace, a non-whitespace mnemonic, optional
whitespace, optional trailing operand text" anchored to the full line,
and the returned record's fields (offset token with the colon stripped,
mnemonic, verbatim trailing operand text) realize such a decomposition of
the line; every other line yields `none` (the parser is a pure function,
so it has no side effects). -/
theorem claim_C6_line_parse (line : Line) :
    ((∃ off mn ops, SpecInstructionMatch line off mn ops) ↔
      (parse_instruction line).isSome) ∧
    (∀ i, parse_instruction line = some i →
      SpecInstructionMatch line i.byte_offset i.operation i.operands) := by
  constructor
  · constructor
    · rintro ⟨off, mn, ops, h⟩
      exact parse_isSome_of_match h
    · intro h
      obtain ⟨i, hi⟩ := Option.isSome_iff_exists.mp h
      exact ⟨_, _, _, match_of_parse hi⟩
  · intro i hi
    exact match_of_parse hi

/-- Witness for C6 at the concrete line `"  0: jmp 1"`. -/
theorem claim_C6_line_parse_witness :
    SpecInstructionMatch ("  0: jmp 1".toList) ("0".toList) ("jmp".toList) ("1".toList) :=
  (claim_C6_line_parse ("  0: jmp 1".toList)).2 ⟨"0".toList, "jmp".toList, "1".toList⟩
    (by decide)

/-! ### Definition Scanner lemmas -/

theorem takeWhile_get {α : Type} {p : α → Bool} :
    ∀ (l : List α) (k : Nat), k < (l.takeWhile p).length →
      ∃ x, l[k]? = some x ∧ p x = true := by
  intro l
  induction l with
  | nil => intro k hk; simp at hk
  | cons a l ih =>
    intro k hk
    by_cases ha : p a = true
    · rw [List.takeWhile_cons_of_pos ha] at hk
      cases k with
      | zero => exact ⟨a, by simp, ha⟩
      | succ k =>
        obtain ⟨x, hx, hp⟩ := ih k (by simpa using hk)
        exact ⟨x, by simpa using hx, hp⟩
    · rw [List.takeWhile_cons_of_neg ha] at hk
      simp at hk

theorem takeWhile_stop {α : Type} {p : α → Bool} :
    ∀ (l : List α), (l.takeWhile p).length < l.length →
      ∃ x, l[(l.takeWhile p).length]? = some x ∧ p x = false := by
  intro l
  induction l with
  | nil => intro h; simp at h
  | cons a l ih =>
    intro h
    by_cases ha : p a = true
    · rw [List.takeWhile_cons_of_pos ha] at h ⊢
      obtain ⟨x, hx, hp⟩ := ih (by simpa using h)
      exact ⟨x, by simpa using hx, hp⟩
    · rw [List.takeWhile_cons_of_neg ha]
      exact ⟨a, by simp, by simpa using ha⟩

theorem countInstr_parses {lines : List Line} {i k : Nat}
    (h : k < countInstr lines i) :
    ∃ l, lines[i + k]? = some l ∧ (parse_instruction l).isSome = true := by
  obtain ⟨x, hx, hp⟩ := takeWhile_get (lines.drop i) k h
  rw [List.getElem?_drop] at hx
  exact ⟨x, hx, hp⟩

theorem countInstr_le {lines : List Line} {i : Nat} :
    countInstr lines i ≤ lines.length - i := by
  have h : ((lines.drop i).takeWhile isInstructionLine).length ≤ (lines.drop i).length :=
    (List.takeWhile_sublist isInstructionLine).length_le
  simpa [countInstr] using h

theorem countInstr_stop {lines : List Line} {i : Nat}
    (h : i + countInstr lines i < lines.length) :
    ∃ l, lines[i + countInstr lines i]? = some l ∧
      (parse_instruction l).isSome = false := by
  have hlt : countInstr lines i < (lines.drop i).length := by
    rw [List.length_drop]
    omega
  obtain ⟨x, hx, hp⟩ := takeWhile_stop (lines.drop i) hlt
  rw [List.getElem?_drop] at hx
  exact ⟨x, hx, hp⟩

theorem scanGo_sound (lines : List Line) :
    ∀ fuel i, ∀ d ∈ scanGo lines fuel i,
      i ≤ d.line_start_index ∧
      d.line_count = countInstr lines (d.line_start_index + 1) + 1 ∧
      d.line_start_index + d.line_count < lines.length ∧
      ∃ l fn, lines[d.line_start_index]? = some l ∧ header_name l = some fn ∧
        d.name = short_name fn := by
  intro fuel
  induction fuel with
  | zero => intro i d hd; simp [scanGo] at hd
  | succ fuel ih =>
    intro i d hd
    rw [scanGo] at hd
    split at hd
    · simp at hd
    next l hl =>
      split at hd
      · have := ih (i + 1) d hd
        exact ⟨by omega, this.2⟩
      next fn hh =>
        split at hd
        next hclose =>
          rcases List.mem_cons.mp hd with rfl | hd
          · refine ⟨le_refl i, rfl, ?_, l, fn, hl, hh, rfl⟩
            show i + (countInstr lines (i + 1) + 1) < lines.length
            omega
          · have := ih (i + 1 + countInstr lines (i + 1) + 1) d hd
            exact ⟨by omega, this.2⟩
        next hclose => simp at hd

theorem scan_body_ok {lines : List Line} {d : FunctionDefinition}
    (hd : d ∈ get_function_definitions lines) : BodyOK lines d := by
  obtain ⟨-, hcount, -, -⟩ := scanGo_sound lines lines.length 0 d hd
  intro k hk1 hk2
  have hlt : k - (d.line_start_index + 1) < countInstr lines (d.line_start_index + 1) := by
    omega
  obtain ⟨l, hl, hp⟩ := countInstr_parses hlt
  rw [show d.line_start_index + 1 + (k - (d.line_start_index + 1)) = k by omega] at hl
  exact ⟨l, hl, hp⟩

theorem build_pairs_isSome {lines : List Line} :
    ∀ {idxs : List Nat},
      (∀ k ∈ idxs, ∃ l, lines[k]? = some l ∧ (parse_instruction l).isSome = true) →
      (build_pairs lines idxs).isSome := by
  intro idxs
  induction idxs with
  | nil => intro _; simp [build_pairs]
  | cons k rest ih =>
    intro h
    obtain ⟨l, hl, hp⟩ := h k (by simp)
    obtain ⟨inst, hinst⟩ := Option.isSome_iff_exists.mp hp
    have hrest := ih fun k hk => h k (by simp [hk])
    obtain ⟨ps, hps⟩ := Option.isSome_iff_exists.mp hrest
    simp [build_pairs, hl, hinst, hps]

theorem body_fold_isSome {lines : List Line}
    {visit : List FunctionDefinition → Line → Option (List FunctionDefinition)}
    (hvisit : ∀ u op, (visit u op).isSome) :
    ∀ (idxs : List Nat) (u : List FunctionDefinition),
      (∀ k ∈ idxs, ∃ l, lines[k]? = some l ∧ (parse_instruction l).isSome = true) →
      (body_fold lines visit u idxs).isSome := by
  intro idxs
  induction idxs with
  | nil => intro u _; simp [body_fold]
  | cons k rest ih =>
    intro u h
    obtain ⟨l, hl, hp⟩ := h k (by simp)
    obtain ⟨inst, hinst⟩ := Option.isSome_iff_exists.mp hp
    have hrest := fun u => ih u (fun k hk => h k (by simp [hk]))
    simp only [body_fold, hl, hinst]
    by_cases hcall : inst.operation = 'c' :: 'a' :: 'l' :: 'l' :: []
    · rw [if_pos hcall]
      obtain ⟨u', hu'⟩ := Option.isSome_iff_exists.mp (hvisit u inst.operands)
      rw [hu']
      exact hrest u'
    · rw [if_neg hcall]
      exact hrest u

theorem body_range_ok {lines : List Line} {d : FunctionDefinition}
    (hb : BodyOK lines d) :
    ∀ k ∈ List.range' (d.line_start_index + 1) (d.line_count - 1),
      ∃ l, lines[k]? = some l ∧ (parse_instruction l).isSome = true := by
  intro k hk
  rw [List.mem_range'_1] at hk
  exact hb k hk.1 (by omega)

/-! ### Scanner step equations, ordering, completeness -/

theorem scanGo_step_nil {lines : List Line} {fuel i : Nat}
    (hl : lines[i]? = none) : scanGo lines (fuel + 1) i = [] := by
  rw [scanGo]
  simp [hl]

theorem scanGo_step_skip {lines : List Line} {fuel i : Nat} {l₀ : Line}
    (hl : lines[i]? = some l₀) (hh : header_name l₀ = none) :
    scanGo lines (fuel + 1) i = scanGo lines fuel (i + 1) := by
  rw [scanGo]
  simp [hl, hh]

theorem scanGo_step_rec {lines : List Line} {fuel i : Nat} {l₀ fn : Line}
    (hl : lines[i]? = some l₀) (hh : header_name l₀ = some fn)
    (hclose : i + 1 + countInstr lines (i + 1) < lines.length) :
    scanGo lines (fuel + 1) i =
      ⟨short_name fn, i, countInstr lines (i + 1) + 1⟩ ::
        scanGo lines fuel (i + 1 + countInstr lines (i + 1) + 1) := by
  rw [scanGo]
  simp [hl, hh, hclose]

theorem scanGo_step_runoff {lines : List Line} {fuel i : Nat} {l₀ fn : Line}
    (hl : lines[i]? = some l₀) (hh : header_name l₀ = some fn)
    (hclose : ¬ i + 1 + countInstr lines (i + 1) < lines.length) :
    scanGo lines (fuel + 1) i = [] := by
  rw [scanGo]
  simp [hl, hh, hclose]

theorem scanGo_chain (lines : List Line) :
    ∀ fuel i, List.Chain'
      (fun a b => a.line_start_index + a.line_count + 1 ≤ b.line_start_index)
      (scanGo lines fuel i) := by
  intro fuel
  induction fuel with
  | zero => intro i; simp [scanGo]
  | succ fuel ih =>
    intro i
    cases hl : lines[i]? with
    | none => rw [scanGo_step_nil hl]; simp
    | some l₀ =>
      cases hh : header_name l₀ with
      | none => rw [scanGo_step_skip hl hh]; exact ih (i + 1)
      | some fn =>
        by_cases hclose : i + 1 + countInstr lines (i + 1) < lines.length
        · rw [scanGo_step_rec hl hh hclose, List.chain'_cons']
          refine ⟨?_, ih _⟩
          intro b hb
          have hbmem := List.mem_of_mem_head? hb
          have hs := (scanGo_sound lines fuel _ b hbmem).1
          show i + (countInstr lines (i + 1) + 1) + 1 ≤ b.line_start_index
          omega
        · rw [scanGo_step_runoff hl hh hclose]; simp

theorem getElem?_lt_length {lines : List Line} {k : Nat} {l : Line}
    (hl : lines[k]? = some l) : k < lines.length := by
  by_contra h
  rw [List.getElem?_eq_none (by omega)] at hl
  exact absurd hl (by simp)

theorem scanGo_complete (lines : List Line) :
    ∀ fuel i k, lines.length ≤ i + fuel → i ≤ k →
      ∀ l, lines[k]? = some l → (header_name l).isSome →
      (∃ d ∈ scanGo lines fuel i,
        d.line_start_index ≤ k ∧ k ≤ d.line_start_index + d.line_count) ∨
      (∀ m, k < m → m < lines.length →
        ∃ l', lines[m]? = some l' ∧ (parse_instruction l').isSome = true) := by
  intro fuel
  induction fuel with
  | zero =>
    intro i k hfuel hik l hl _
    have := getElem?_lt_length hl
    omega
  | succ fuel ih =>
    intro i k hfuel hik l hl hh
    have hklen : k < lines.length := getElem?_lt_length hl
    have hi : i < lines.length := by omega
    have hl₀ : lines[i]? = some lines[i] := List.getElem?_eq_getElem hi
    cases hh₀ : header_name lines[i] with
    | none =>
      rcases Nat.eq_or_lt_of_le hik with rfl | hik'
      · rw [hl₀] at hl
        injection hl with hle
        rw [hle] at hh₀
        rw [hh₀] at hh
        simp at hh
      · rw [scanGo_step_skip hl₀ hh₀]
        exact ih (i + 1) k (by omega) (by omega) l hl hh
    | some fn =>
      by_cases hclose : i + 1 + countInstr lines (i + 1) < lines.length
      · rw [scanGo_step_rec hl₀ hh₀ hclose]
        by_cases hk2 : k ≤ i + 1 + countInstr lines (i + 1)
        · left
          refine ⟨⟨short_name fn, i, countInstr lines (i + 1) + 1⟩,
            List.mem_cons_self .., ?_, ?_⟩
          · show i ≤ k
            omega
          · show k ≤ i + (countInstr lines (i + 1) + 1)
            omega
        · rcases ih (i + 1 + countInstr lines (i + 1) + 1) k (by omega) (by omega)
              l hl hh with ⟨d, hd, h1, h2⟩ | htail
          · exact Or.inl ⟨d, List.mem_cons_of_mem _ hd, h1, h2⟩
          · exact Or.inr htail
      · right
        intro m hm hmlen
        have hmc : m - (i + 1) < countInstr lines (i + 1) := by omega
        obtain ⟨l', hl', hp⟩ := countInstr_parses hmc
        rw [show i + 1 + (m - (i + 1)) = m by omega] at hl'
        exact ⟨l', hl', hp⟩

/-! ### Claims C3, C4, C10 -/

/-- C3: the claim is right about the spec's intent ("the first
non-instruction line (or end of input) closes the function") but the
code drops a function whose body reaches the end of input: the inner
`while` of `get_function_definitions` exits without appending when
`line_index` reaches `len(lines)`.  On `["foo:", "0: ret"]` — where
`"foo:"` is a header and the final line parses as an instruction — the
scanner records nothing at all. -/
theorem claim_C3_runoff_drops_function :
    get_function_definitions (["foo:", "0: ret"].map String.toList) = [] ∧
    header_name ("foo:".toList) = some ("foo".toList) ∧
    (parse_instruction ("0: ret".toList)).isSome = true := by decide

/-- C4 (amended): every recorded definition opens at a line matching the
header pattern (regardless of whether that line also parses as an
instruction), with `short_name` applied to the captured text, and
definitions appear in order of appearance with disjoint extents
(including the skipped closing line).  Conversely, every line matching
the header pattern either starts a recorded definition, or lies inside
the extent of a recorded definition (its body or its closing line — such
a header does NOT open a definition), or is followed by instruction
lines only up to the end of input (the unrecorded run-off region). -/
theorem claim_C4_header_scan (lines : List Line) :
    (∀ d ∈ get_function_definitions lines,
      ∃ l fn, lines[d.line_start_index]? = some l ∧ header_name l = some fn ∧
        d.name = short_name fn) ∧
    List.Chain' (fun a b => a.line_start_index + a.line_count + 1 ≤ b.line_start_index)
      (get_function_definitions lines) ∧
    (∀ k l, lines[k]? = some l → (header_name l).isSome →
      (∃ d ∈ get_function_definitions lines,
        d.line_start_index ≤ k ∧ k ≤ d.line_start_index + d.line_count) ∨
      (∀ m, k < m → m < lines.length →
        ∃ l', lines[m]? = some l' ∧ (parse_instruction l').isSome = true)) := by
  refine ⟨?_, scanGo_chain lines lines.length 0, ?_⟩
  · intro d hd
    exact (scanGo_sound lines lines.length 0 d hd).2.2.2
  · intro k l hl hh
    exact scanGo_complete lines lines.length 0 k (by omega) (by omega) l hl hh

/-- Witness for the amended C4 on a concrete listing: the header line at
index 0 starts the recorded definition. -/
theorem claim_C4_header_scan_witness :
    (∃ d ∈ get_function_definitions (["f:", "  0: ret", ""].map String.toList),
      d.line_start_index ≤ 0 ∧ 0 ≤ d.line_start_index + d.line_count) ∨
    (∀ m, 0 < m → m < (["f:", "  0: ret", ""].map String.toList).length →
      ∃ l', (["f:", "  0: ret", ""].map String.toList)[m]? = some l' ∧
        (parse_instruction l').isSome = true) :=
  (claim_C4_header_scan (["f:", "  0: ret", ""].map String.toList)).2.2 0
    ("f:".toList) (by decide) (by decide)

/-- Counterexample to C4 as stated: `"bar:"` matches the header pattern,
is not an instruction line, and immediately follows the last instruction
of the preceding function's body, yet the scanner yields no definition
for it (the closing line is skipped by the outer loop), so it does not
appear in the output of `get_function_definitions`. -/
theorem claim_C4_counterexample :
    (header_name ("bar:".toList)).isSome = true ∧
    (parse_instruction ("bar:".toList)).isSome = false ∧
    get_function_definitions (["foo:", "1: ret", "bar:", "2: ret", ""].map String.toList) =
      [⟨"foo".toList, 0, 2⟩] := by decide

/-- C10: every `FunctionDefinition` produced by the Definition Scanner
has `line_count ≥ 1`, every line at index `line_start_index + 1` through
`line_start_index + line_count - 1` is in range and parses as an
instruction, and consequently the unchecked accesses are safe: the Label
Rewriter's pair construction (`build_pairs`) over the body range always
succeeds, and the Reachability Resolver's body scan (`body_fold`, which
reads `.operation` of every parse result in the body range) never hits a
failed parse — it succeeds whenever the recursive visits do. -/
theorem claim_C10_body_safety (lines : List Line) (d : FunctionDefinition)
    (hd : d ∈ get_function_definitions lines) :
    1 ≤ d.line_count ∧ BodyOK lines d ∧
    (build_pairs lines (List.range' (d.line_start_index + 1) (d.line_count - 1))).isSome ∧
    (∀ visit u₀, (∀ u op, (visit u op).isSome = true) →
      (body_fold lines visit u₀
        (List.range' (d.line_start_index + 1) (d.line_count - 1))).isSome) := by
  have hb := scan_body_ok hd
  have hcount := (scanGo_sound lines lines.length 0 d hd).2.1
  refine ⟨by omega, hb, build_pairs_isSome (body_range_ok hb), ?_⟩
  intro visit u₀ hv
  exact body_fold_isSome hv _ u₀ (body_range_ok hb)

/-- Witness for C10 on a concrete listing. -/
theorem claim_C10_body_safety_witness :
    1 ≤ (⟨"f".toList, 0, 2⟩ : FunctionDefinition).line_count ∧
    BodyOK (["f:", "  0: ret", ""].map String.toList) ⟨"f".toList, 0, 2⟩ ∧
    (build_pairs (["f:", "  0: ret", ""].map String.toList)
      (List.range' 1 1)).isSome ∧
    (∀ visit u₀, (∀ u op, (visit u op).isSome = true) →
      (body_fold (["f:", "  0: ret", ""].map String.toList) visit u₀
        (List.range' 1 1)).isSome) :=
  claim_C10_body_safety (["f:", "  0: ret", ""].map String.toList)
    ⟨"f".toList, 0, 2⟩ (by decide)

/-! ### Reachability Resolver lemmas -/

theorem find_name_eq {defs : List FunctionDefinition} {n : Line} {d : FunctionDefinition}
    (h : find_function_definition defs n = some d) : d.name = n := by
  have := List.find?_some h
  simpa using this

theorem find_mem {defs : List FunctionDefinition} {n : Line} {d : FunctionDefinition}
    (h : find_function_definition defs n = some d) : d ∈ defs :=
  List.mem_of_find?_eq_some h

theorem find_append_left {used : List FunctionDefinition} (t : List FunctionDefinition)
    {n : Line} {d : FunctionDefinition} (h : find_function_definition used n = some d) :
    find_function_definition (used ++ t) n = some d := by
  unfold find_function_definition at *
  rw [List.find?_append, h]
  rfl

theorem hasName_append {used t : List FunctionDefinition} {n : Line}
    (h : hasName used n = true) : hasName (used ++ t) n = true := by
  unfold hasName at *
  obtain ⟨d, hd⟩ := Option.isSome_iff_exists.mp h
  rw [find_append_left t hd]
  rfl

theorem hasName_of_mem {used : List FunctionDefinition} {e : FunctionDefinition} {n : Line}
    (he : e ∈ used) (hn : e.name = n) : hasName used n = true := by
  unfold hasName find_function_definition
  rw [Option.isSome_iff_exists]
  have : (List.find? (fun d => d.name == n) used).isSome := by
    rw [List.find?_isSome]
    exact ⟨e, he, by simp [hn]⟩
  exact Option.isSome_iff_exists.mp this

theorem mem_of_hasName {used : List FunctionDefinition} {n : Line}
    (h : hasName used n = true) : ∃ e ∈ used, e.name = n := by
  unfold hasName at h
  obtain ⟨d, hd⟩ := Option.isSome_iff_exists.mp h
  exact ⟨d, List.mem_of_find?_eq_some hd, by simpa using List.find?_some hd⟩

theorem remaining_append_le (defs : List FunctionDefinition)
    (used t : List FunctionDefinition) :
    remaining defs (used ++ t) ≤ remaining defs used := by
  unfold remaining
  refine List.countP_mono_left ?_
  intro d _ hd
  rw [Bool.not_eq_true'] at hd ⊢
  cases h : find_function_definition used d.name with
  | none => simp
  | some e =>
    rw [find_append_left t h] at hd
    simp at hd

theorem countP_lt {α : Type} {p q : α → Bool} :
    ∀ {l : List α}, (∀ x ∈ l, p x = true → q x = true) →
      ∀ {a}, a ∈ l → p a = false → q a = true → l.countP p < l.countP q := by
  intro l
  induction l with
  | nil => intro _ a ha; simp at ha
  | cons x xs ih =>
    intro hpq a ha hpa hqa
    rw [List.countP_cons, List.countP_cons]
    have hmono : xs.countP p ≤ xs.countP q :=
      List.countP_mono_left fun y hy => hpq y (by simp [hy])
    rcases List.mem_cons.mp ha with rfl | ha'
    · rw [hpa, hqa]
      simp
      omega
    · have := ih (fun y hy => hpq y (by simp [hy])) ha' hpa hqa
      have hx : (if p x = true then 1 else 0) ≤ (if q x = true then 1 else 0) := by
        by_cases hpx : p x = true
        · rw [if_pos hpx, if_pos (hpq x (by simp) hpx)]
        · rw [if_neg hpx]
          omega
      omega

theorem remaining_append_lt {defs used : List FunctionDefinition}
    {d : FunctionDefinition} (hd : d ∈ defs)
    (h1 : (find_function_definition used d.name).isSome = false) :
    remaining defs (used ++ [d]) < remaining defs used := by
  unfold remaining
  refine countP_lt ?_ hd ?_ ?_
  · intro x _ hx
    rw [Bool.not_eq_true'] at hx ⊢
    cases h : find_function_definition used x.name with
    | none => simp
    | some e =>
      rw [find_append_left [d] h] at hx
      simp at hx
  · have : hasName (used ++ [d]) d.name = true :=
      hasName_of_mem (List.mem_append_right used (by simp)) rfl
    unfold hasName at this
    simp [this]
  · simp [h1]

theorem remaining_nil (defs : List FunctionDefinition) :
    remaining defs [] = defs.length := by
  unfold remaining
  have : ∀ d : FunctionDefinition,
      (!(find_function_definition [] d.name).isSome) = true := by
    intro d
    rfl
  rw [List.countP_eq_length.mpr fun d _ => this d]

theorem remaining_pos {defs used : List FunctionDefinition} {d : FunctionDefinition}
    (hd : d ∈ defs) (h1 : (find_function_definition used d.name).isSome = false) :
    0 < remaining defs used := by
  unfold remaining
  rw [List.countP_pos_iff]
  exact ⟨d, hd, by simp [h1]⟩

/-! ### Resolver step equations -/

theorem used_nil (lines : List Line) (defs : List FunctionDefinition)
    (fuel : Nat) (used : List FunctionDefinition) :
    get_used_functions lines defs fuel used [] = some used := by
  cases fuel <;> rfl

theorem used_step_visited {lines : List Line} {defs used : List FunctionDefinition}
    {n : Line} (fuel : Nat) (rest : List Line)
    (h : (find_function_definition used n).isSome = true) :
    get_used_functions lines defs fuel used (n :: rest) = some used := by
  cases fuel <;> · rw [get_used_functions]; simp [h]

theorem used_step_zero {lines : List Line} {defs used : List FunctionDefinition}
    {n : Line} (rest : List Line)
    (h : (find_function_definition used n).isSome = false) :
    get_used_functions lines defs 0 used (n :: rest) = none := by
  rw [get_used_functions]
  rw [if_neg (by simp [h])]
  cases hd : find_function_definition defs n <;> rfl

theorem used_step_undef {lines : List Line} {defs used : List FunctionDefinition}
    {n : Line} (fuel : Nat) (rest : List Line)
    (h : (find_function_definition used n).isSome = false)
    (hd : find_function_definition defs n = none) :
    get_used_functions lines defs (fuel + 1) used (n :: rest) =
      get_used_functions lines defs fuel used rest := by
  rw [get_used_functions]
  rw [if_neg (by simp [h]), hd]

theorem used_step_found {lines : List Line} {defs used : List FunctionDefinition}
    {n : Line} {d : FunctionDefinition} (fuel : Nat) (rest : List Line)
    (h : (find_function_definition used n).isSome = false)
    (hd : find_function_definition defs n = some d) :
    get_used_functions lines defs (fuel + 1) used (n :: rest) =
      match body_fold lines (fun u op => get_used_functions lines defs fuel u [op])
          (used ++ [d]) (List.range' (d.line_start_index + 1) (d.line_count - 1)) with
      | none => none
      | some u' => get_used_functions lines defs fuel u' rest := by
  rw [get_used_functions]
  rw [if_neg (by simp [h]), hd]

/-! ### `body_fold` invariant lemmas (abstract in the visit function) -/

theorem body_fold_append {lines : List Line}
    {visit : List FunctionDefinition → Line → Option (List FunctionDefinition)}
    (P : FunctionDefinition → Prop)
    (hva : ∀ u op u', visit u op = some u' → ∃ t, u' = u ++ t ∧ ∀ e ∈ t, P e) :
    ∀ (idxs : List Nat) (u u' : List FunctionDefinition),
      body_fold lines visit u idxs = some u' → ∃ t, u' = u ++ t ∧ ∀ e ∈ t, P e := by
  intro idxs
  induction idxs with
  | nil =>
    intro u u' h
    rw [body_fold] at h
    injection h with h
    exact ⟨[], by simp [h.symm], by simp⟩
  | cons k rest ih =>
    intro u u' h
    rw [body_fold] at h
    cases hl : lines[k]? with
    | none => rw [hl] at h; simp at h
    | some l =>
      rw [hl] at h
      cases hp : parse_instruction l with
      | none => simp [hp] at h
      | some inst =>
        simp only [hp] at h
        by_cases hcall : inst.operation = 'c' :: 'a' :: 'l' :: 'l' :: []
        · rw [if_pos hcall] at h
          cases hv : visit u inst.operands with
          | none => rw [hv] at h; simp at h
          | some u₁ =>
            rw [hv] at h
            obtain ⟨t₁, rfl, hP₁⟩ := hva u inst.operands u₁ hv
            obtain ⟨t₂, rfl, hP₂⟩ := ih _ _ h
            refine ⟨t₁ ++ t₂, by simp, ?_⟩
            intro e he
            rcases List.mem_append.mp he with he | he
            · exact hP₁ e he
            · exact hP₂ e he
        · rw [if_neg hcall] at h
          exact ih _ _ h

theorem used_append (lines : List Line) (defs : List FunctionDefinition) :
    ∀ (fuel : Nat) (used : List FunctionDefinition) (names : List Line)
      (u' : List FunctionDefinition),
      get_used_functions lines defs fuel used names = some u' →
      ∃ t, u' = used ++ t ∧
        ∀ e ∈ t, find_function_definition defs e.name = some e := by
  intro fuel
  induction fuel with
  | zero =>
    intro used names u' h
    cases names with
    | nil =>
      rw [used_nil] at h
      injection h with h
      exact ⟨[], by simp [h.symm], by simp⟩
    | cons n rest =>
      by_cases hv : (find_function_definition used n).isSome = true
      · rw [used_step_visited 0 rest hv] at h
        injection h with h
        exact ⟨[], by simp [h.symm], by simp⟩
      · rw [used_step_zero rest (by simpa using hv)] at h
        exact absurd h (by simp)
  | succ fuel ih =>
    intro used names u' h
    cases names with
    | nil =>
      rw [used_nil] at h
      injection h with h
      exact ⟨[], by simp [h.symm], by simp⟩
    | cons n rest =>
      by_cases hv : (find_function_definition used n).isSome = true
      · rw [used_step_visited (fuel + 1) rest hv] at h
        injection h with h
        exact ⟨[], by simp [h.symm], by simp⟩
      · have hv' : (find_function_definition used n).isSome = false := by simpa using hv
        cases hd : find_function_definition defs n with
        | none =>
          rw [used_step_undef fuel rest hv' hd] at h
          exact ih used rest u' h
        | some d =>
          rw [used_step_found fuel rest hv' hd] at h
          cases hbf : body_fold lines
              (fun u op => get_used_functions lines defs fuel u [op]) (used ++ [d])
              (List.range' (d.line_start_index + 1) (d.line_count - 1)) with
          | none => rw [hbf] at h; simp at h
          | some u₂ =>
            rw [hbf] at h
            have hself : find_function_definition defs d.name = some d := by
              rw [find_name_eq hd]
              exact hd
            obtain ⟨t₁, rfl, hP₁⟩ := body_fold_append
              (fun e => find_function_definition defs e.name = some e)
              (fun u op u'' hu => ih u [op] u'' hu) _ _ _ hbf
            obtain ⟨t₂, rfl, hP₂⟩ := ih _ rest u' h
            refine ⟨[d] ++ t₁ ++ t₂, by simp, ?_⟩
            intro e he
            simp only [List.mem_append, List.mem_singleton] at he
            rcases he with (rfl | he) | he
            · exact hself
            · exact hP₁ e he
            · exact hP₂ e he

theorem body_fold_someI {lines : List Line}
    {visit : List FunctionDefinition → Line → Option (List FunctionDefinition)}
    (I : List FunctionDefinition → Prop)
    (hva : ∀ u op u', visit u op = some u' → ∃ t, u' = u ++ t)
    (hImono : ∀ u t, I u → I (u ++ t))
    (hv : ∀ u op, I u → (visit u op).isSome = true) :
    ∀ (idxs : List Nat) (u : List FunctionDefinition), I u →
      (∀ k ∈ idxs, ∃ l, lines[k]? = some l ∧ (parse_instruction l).isSome = true) →
      (body_fold lines visit u idxs).isSome = true := by
  intro idxs
  induction idxs with
  | nil => intro u _ _; rw [body_fold]; rfl
  | cons k rest ih =>
    intro u hI h
    obtain ⟨l, hl, hp⟩ := h k (by simp)
    obtain ⟨inst, hinst⟩ := Option.isSome_iff_exists.mp hp
    rw [body_fold, hl]
    simp only [hinst]
    by_cases hcall : inst.operation = 'c' :: 'a' :: 'l' :: 'l' :: []
    · rw [if_pos hcall]
      obtain ⟨u₁, hu₁⟩ := Option.isSome_iff_exists.mp (hv u inst.operands hI)
      rw [hu₁]
      obtain ⟨t, rfl⟩ := hva u inst.operands u₁ hu₁
      exact ih _ (hImono u t hI) fun k hk => h k (by simp [hk])
    · rw [if_neg hcall]
      exact ih u hI fun k hk => h k (by simp [hk])

/-- Fuel sufficiency: with `names.length + 2 * remaining` fuel, the
resolver never exhausts its fuel (given the scanner's body guarantee),
so the canonical fuel `used_fuel` in `write_cleaned_disasm` reproduces
the unbounded Python recursion. -/
theorem used_some (lines : List Line) (defs : List FunctionDefinition)
    (hb : ∀ d ∈ defs, BodyOK lines d) :
    ∀ (fuel : Nat) (used : List FunctionDefinition) (names : List Line),
      names.length + 2 * remaining defs used ≤ fuel →
      (get_used_functions lines defs fuel used names).isSome = true := by
  intro fuel
  induction fuel with
  | zero =>
    intro used names hbound
    cases names with
    | nil => rw [used_nil]; rfl
    | cons n rest => simp at hbound
  | succ fuel ih =>
    intro used names hbound
    cases names with
    | nil => rw [used_nil]; rfl
    | cons n rest =>
      by_cases hv : (find_function_definition used n).isSome = true
      · rw [used_step_visited (fuel + 1) rest hv]; rfl
      · have hv' : (find_function_definition used n).isSome = false := by simpa using hv
        cases hd : find_function_definition defs n with
        | none =>
          rw [used_step_undef fuel rest hv' hd]
          refine ih used rest ?_
          simp only [List.length_cons] at hbound
          omega
        | some d =>
          rw [used_step_found fuel rest hv' hd]
          have hdn : d.name = n := find_name_eq hd
          have hR : 0 < remaining defs used :=
            remaining_pos (find_mem hd) (by rw [hdn]; exact hv')
          have hRd : remaining defs (used ++ [d]) < remaining defs used :=
            remaining_append_lt (find_mem hd) (by rw [hdn]; exact hv')
          have hIbf := body_fold_someI
            (fun u => remaining defs u + 1 ≤ remaining defs used)
            (fun u op u' hu => by
              obtain ⟨t, ht, -⟩ := used_append lines defs fuel u [op] u' hu
              exact ⟨t, ht⟩)
            (fun u t hI => le_trans (by
              have := remaining_append_le defs u t
              omega) hI)
            (fun u op hI => by
              refine ih u [op] ?_
              simp only [List.length_cons, List.length_nil] at hbound ⊢
              omega)
            (List.range' (d.line_start_index + 1) (d.line_count - 1))
            (used ++ [d]) (by omega)
            (body_range_ok (hb d (find_mem hd)))
          obtain ⟨u₂, hu₂⟩ := Option.isSome_iff_exists.mp hIbf
          rw [hu₂]
          obtain ⟨t, rfl, -⟩ := body_fold_append (fun _ => True)
            (fun u op u'' hu => by
              obtain ⟨t, ht, -⟩ := used_append lines defs fuel u [op] u'' hu
              exact ⟨t, ht, fun _ _ => trivial⟩) _ _ _ hu₂
          refine ih _ rest ?_
          have h1 := remaining_append_le defs (used ++ [d]) t
          simp only [List.length_cons] at hbound
          omega

theorem opsOf_cons_call {lines : List Line} {k : Nat} {l : Line} {inst : Instruction}
    (rest : List Nat) (hl : lines[k]? = some l) (hp : parse_instruction l = some inst)
    (hcall : inst.operation = 'c' :: 'a' :: 'l' :: 'l' :: []) :
    opsOf lines (k :: rest) = inst.operands :: opsOf lines rest := by
  rw [opsOf, hl]
  simp [hp, hcall]

theorem opsOf_cons_other {lines : List Line} {k : Nat} {l : Line} {inst : Instruction}
    (rest : List Nat) (hl : lines[k]? = some l) (hp : parse_instruction l = some inst)
    (hcall : ¬ inst.operation = 'c' :: 'a' :: 'l' :: 'l' :: []) :
    opsOf lines (k :: rest) = opsOf lines rest := by
  rw [opsOf, hl]
  simp [hp, hcall]

theorem body_fold_sound {lines : List Line}
    {visit : List FunctionDefinition → Line → Option (List FunctionDefinition)}
    (Q : Line → FunctionDefinition → Prop)
    (hv : ∀ u op u', visit u op = some u' → ∀ e ∈ u', e ∈ u ∨ Q op e) :
    ∀ (idxs : List Nat) (u u' : List FunctionDefinition),
      body_fold lines visit u idxs = some u' →
      ∀ e ∈ u', e ∈ u ∨ ∃ op ∈ opsOf lines idxs, Q op e := by
  intro idxs
  induction idxs with
  | nil =>
    intro u u' h e he
    rw [body_fold] at h
    injection h with h
    exact Or.inl (h ▸ he)
  | cons k rest ih =>
    intro u u' h e he
    rw [body_fold] at h
    cases hl : lines[k]? with
    | none => rw [hl] at h; simp at h
    | some l =>
      rw [hl] at h
      cases hp : parse_instruction l with
      | none => simp [hp] at h
      | some inst =>
        simp only [hp] at h
        by_cases hcall : inst.operation = 'c' :: 'a' :: 'l' :: 'l' :: []
        · rw [if_pos hcall] at h
          cases hvis : visit u inst.operands with
          | none => rw [hvis] at h; simp at h
          | some u₁ =>
            rw [hvis] at h
            rw [opsOf_cons_call rest hl hp hcall]
            rcases ih u₁ u' h e he with he₁ | ⟨op, hop, hQ⟩
            · rcases hv u inst.operands u₁ hvis e he₁ with he₀ | hQ
              · exact Or.inl he₀
              · exact Or.inr ⟨inst.operands, by simp, hQ⟩
            · exact Or.inr ⟨op, by simp [hop], hQ⟩
        · rw [if_neg hcall] at h
          rw [opsOf_cons_other rest hl hp hcall]
          exact ih u u' h e he

/-- Soundness of the resolver: every entry of the result was already in
`used` or is reachable (by `call` edges) from one of the batch names. -/
theorem used_sound (lines : List Line) (defs : List FunctionDefinition) :
    ∀ (fuel : Nat) (used : List FunctionDefinition) (names : List Line)
      (u' : List FunctionDefinition),
      get_used_functions lines defs fuel used names = some u' →
      ∀ e ∈ u', e ∈ used ∨ ∃ m ∈ names, Reach lines defs m e.name := by
  intro fuel
  induction fuel with
  | zero =>
    intro used names u' h e he
    cases names with
    | nil =>
      rw [used_nil] at h
      injection h with h
      exact Or.inl (h ▸ he)
    | cons n rest =>
      by_cases hv : (find_function_definition used n).isSome = true
      · rw [used_step_visited 0 rest hv] at h
        injection h with h
        exact Or.inl (h ▸ he)
      · rw [used_step_zero rest (by simpa using hv)] at h
        exact absurd h (by simp)
  | succ fuel ih =>
    intro used names u' h e he
    cases names with
    | nil =>
      rw [used_nil] at h
      injection h with h
      exact Or.inl (h ▸ he)
    | cons n rest =>
      by_cases hv : (find_function_definition used n).isSome = true
      · rw [used_step_visited (fuel + 1) rest hv] at h
        injection h with h
        exact Or.inl (h ▸ he)
      · have hv' : (find_function_definition used n).isSome = false := by simpa using hv
        cases hd : find_function_definition defs n with
        | none =>
          rw [used_step_undef fuel rest hv' hd] at h
          rcases ih used rest u' h e he with h₁ | ⟨m, hm, hr⟩
          · exact Or.inl h₁
          · exact Or.inr ⟨m, by simp [hm], hr⟩
        | some d =>
          rw [used_step_found fuel rest hv' hd] at h
          cases hbf : body_fold lines
              (fun u op => get_used_functions lines defs fuel u [op]) (used ++ [d])
              (List.range' (d.line_start_index + 1) (d.line_count - 1)) with
          | none => rw [hbf] at h; simp at h
          | some u₂ =>
            rw [hbf] at h
            have hdn : d.name = n := find_name_eq hd
            rcases ih u₂ rest u' h e he with he₂ | ⟨m, hm, hr⟩
            · have hbsound := body_fold_sound
                (fun op e => Reach lines defs op e.name)
                (fun u op u'' hu => fun e he => by
                  rcases ih u [op] u'' hu e he with h₁ | ⟨m, hm, hr⟩
                  · exact Or.inl h₁
                  · rw [List.mem_singleton] at hm
                    exact Or.inr (hm ▸ hr))
                _ _ _ hbf e he₂
              rcases hbsound with he₀ | ⟨op, hop, hQ⟩
              · rcases List.mem_append.mp he₀ with h₁ | h₁
                · exact Or.inl h₁
                · rw [List.mem_singleton] at h₁
                  subst h₁
                  refine Or.inr ⟨n, by simp, ?_⟩
                  rw [hdn]
                  exact Relation.ReflTransGen.refl
              · refine Or.inr ⟨n, by simp, ?_⟩
                exact Relation.ReflTransGen.head ⟨d, hd, hop⟩ hQ
            · exact Or.inr ⟨m, by simp [hm], hr⟩

/-- A defined batch head always ends up in the result. -/
theorem used_presence (lines : List Line) (defs : List FunctionDefinition)
    (fuel : Nat) (used : List FunctionDefinition) (n : Line) (rest : List Line)
    (u' : List FunctionDefinition)
    (h : get_used_functions lines defs fuel used (n :: rest) = some u')
    (hdef : (find_function_definition defs n).isSome = true) :
    hasName u' n = true := by
  by_cases hv : (find_function_definition used n).isSome = true
  · rw [used_step_visited fuel rest hv] at h
    injection h with h
    subst h
    exact hv
  · have hv' : (find_function_definition used n).isSome = false := by simpa using hv
    obtain ⟨d, hd⟩ := Option.isSome_iff_exists.mp hdef
    cases fuel with
    | zero =>
      rw [used_step_zero rest hv'] at h
      exact absurd h (by simp)
    | succ fuel =>
      rw [used_step_found fuel rest hv' hd] at h
      cases hbf : body_fold lines
          (fun u op => get_used_functions lines defs fuel u [op]) (used ++ [d])
          (List.range' (d.line_start_index + 1) (d.line_count - 1)) with
      | none => rw [hbf] at h; simp at h
      | some u₂ =>
        rw [hbf] at h
        obtain ⟨t₁, rfl, -⟩ := body_fold_append (fun _ => True)
          (fun u op u'' hu => by
            obtain ⟨t, ht, -⟩ := used_append lines defs fuel u [op] u'' hu
            exact ⟨t, ht, fun _ _ => trivial⟩) _ _ _ hbf
        obtain ⟨t₂, rfl, -⟩ := used_append lines defs fuel _ rest u' h
        refine hasName_of_mem ?_ (find_name_eq hd)
        simp

theorem body_fold_callees {lines : List Line}
    {visit : List FunctionDefinition → Line → Option (List FunctionDefinition)}
    (D : Line → Prop)
    (hva : ∀ u op u', visit u op = some u' → ∃ t, u' = u ++ t)
    (hvp : ∀ u op u', visit u op = some u' → D op → hasName u' op = true) :
    ∀ (idxs : List Nat) (u u' : List FunctionDefinition),
      body_fold lines visit u idxs = some u' →
      ∀ op ∈ opsOf lines idxs, D op → hasName u' op = true := by
  intro idxs
  induction idxs with
  | nil => intro u u' _ op hop; simp [opsOf] at hop
  | cons k rest ih =>
    intro u u' h op hop hD
    rw [body_fold] at h
    cases hl : lines[k]? with
    | none => rw [hl] at h; simp at h
    | some l =>
      rw [hl] at h
      cases hp : parse_instruction l with
      | none => simp [hp] at h
      | some inst =>
        simp only [hp] at h
        by_cases hcall : inst.operation = 'c' :: 'a' :: 'l' :: 'l' :: []
        · rw [if_pos hcall] at h
          cases hvis : visit u inst.operands with
          | none => rw [hvis] at h; simp at h
          | some u₁ =>
            rw [hvis] at h
            rw [opsOf_cons_call rest hl hp hcall] at hop
            rcases List.mem_cons.mp hop with rfl | hop'
            · have h₁ : hasName u₁ inst.operands = true := hvp u inst.operands u₁ hvis hD
              obtain ⟨t, rfl, -⟩ := body_fold_append (fun _ => True)
                (fun u op u'' hu => by
                  obtain ⟨t', ht'⟩ := hva u op u'' hu
                  exact ⟨t', ht', fun _ _ => trivial⟩) _ _ _ h
              exact hasName_append h₁
            · exact ih u₁ u' h op hop' hD
        · rw [if_neg hcall] at h
          rw [opsOf_cons_other rest hl hp hcall] at hop
          exact ih u u' h op hop hD

theorem body_fold_closure {lines : List Line}
    {visit : List FunctionDefinition → Line → Option (List FunctionDefinition)}
    (Self : FunctionDefinition → Prop) (D : Line → Prop)
    (hva : ∀ u op u', visit u op = some u' → ∃ t, u' = u ++ t)
    (hvc : ∀ u op u', visit u op = some u' →
      ∀ e ∈ u', e ∈ u ∨ (Self e ∧ ∀ c ∈ calleesOf lines e, D c → hasName u' c = true)) :
    ∀ (idxs : List Nat) (u u' : List FunctionDefinition),
      body_fold lines visit u idxs = some u' →
      ∀ e ∈ u', e ∈ u ∨
        (Self e ∧ ∀ c ∈ calleesOf lines e, D c → hasName u' c = true) := by
  intro idxs
  induction idxs with
  | nil =>
    intro u u' h e he
    rw [body_fold] at h
    injection h with h
    exact Or.inl (h ▸ he)
  | cons k rest ih =>
    intro u u' h e he
    rw [body_fold] at h
    cases hl : lines[k]? with
    | none => rw [hl] at h; simp at h
    | some l =>
      rw [hl] at h
      cases hp : parse_instruction l with
      | none => simp [hp] at h
      | some inst =>
        simp only [hp] at h
        by_cases hcall : inst.operation = 'c' :: 'a' :: 'l' :: 'l' :: []
        · rw [if_pos hcall] at h
          cases hvis : visit u inst.operands with
          | none => rw [hvis] at h; simp at h
          | some u₁ =>
            rw [hvis] at h
            rcases ih u₁ u' h e he with he₁ | hclosed
            · rcases hvc u inst.operands u₁ hvis e he₁ with he₀ | ⟨hs, hc⟩
              · exact Or.inl he₀
              · obtain ⟨t, rfl, -⟩ := body_fold_append (fun _ => True)
                  (fun u op u'' hu => by
                    obtain ⟨t', ht'⟩ := hva u op u'' hu
                    exact ⟨t', ht', fun _ _ => trivial⟩) _ _ _ h
                exact Or.inr ⟨hs, fun c hcm hD => hasName_append (hc c hcm hD)⟩
            · exact Or.inr hclosed
        · rw [if_neg hcall] at h
          exact ih u u' h e he

/-- Closure of the resolver result: every entry added during the run is
the (first) definition of its own name, and all its defined callees are
present in the final result. -/
theorem used_closure (lines : List Line) (defs : List FunctionDefinition) :
    ∀ (fuel : Nat) (used : List FunctionDefinition) (names : List Line)
      (u' : List FunctionDefinition),
      get_used_functions lines defs fuel used names = some u' →
      ∀ e ∈ u', e ∈ used ∨
        (find_function_definition defs e.name = some e ∧
          ∀ c ∈ calleesOf lines e,
            (find_function_definition defs c).isSome = true → hasName u' c = true) := by
  intro fuel
  induction fuel with
  | zero =>
    intro used names u' h e he
    cases names with
    | nil =>
      rw [used_nil] at h
      injection h with h
      exact Or.inl (h ▸ he)
    | cons n rest =>
      by_cases hv : (find_function_definition used n).isSome = true
      · rw [used_step_visited 0 rest hv] at h
        injection h with h
        exact Or.inl (h ▸ he)
      · rw [used_step_zero rest (by simpa using hv)] at h
        exact absurd h (by simp)
  | succ fuel ih =>
    intro used names u' h e he
    cases names with
    | nil =>
      rw [used_nil] at h
      injection h with h
      exact Or.inl (h ▸ he)
    | cons n rest =>
      by_cases hv : (find_function_definition used n).isSome = true
      · rw [used_step_visited (fuel + 1) rest hv] at h
        injection h with h
        exact Or.inl (h ▸ he)
      · have hv' : (find_function_definition used n).isSome = false := by simpa using hv
        cases hd : find_function_definition defs n with
        | none =>
          rw [used_step_undef fuel rest hv' hd] at h
          exact ih used rest u' h e he
        | some d =>
          rw [used_step_found fuel rest hv' hd] at h
          cases hbf : body_fold lines
              (fun u op => get_used_functions lines defs fuel u [op]) (used ++ [d])
              (List.range' (d.line_start_index + 1) (d.line_count - 1)) with
          | none => rw [hbf] at h; simp at h
          | some u₂ =>
            rw [hbf] at h
            obtain ⟨t₂, rfl, -⟩ := used_append lines defs fuel u₂ rest u' h
            rcases ih u₂ rest (u₂ ++ t₂) h e he with he₂ | hclosed
            · have hbc := body_fold_closure
                (fun e => find_function_definition defs e.name = some e)
                (fun c => (find_function_definition defs c).isSome = true)
                (fun u op u'' hu => by
                  obtain ⟨t, ht, -⟩ := used_append lines defs fuel u [op] u'' hu
                  exact ⟨t, ht⟩)
                (fun u op u'' hu => ih u [op] u'' hu)
                _ _ _ hbf e he₂
              rcases hbc with he₀ | ⟨hs, hc⟩
              · rcases List.mem_append.mp he₀ with h₁ | h₁
                · exact Or.inl h₁
                · rw [List.mem_singleton] at h₁
                  subst h₁
                  refine Or.inr ⟨by rw [find_name_eq hd]; exact hd, ?_⟩
                  intro c hcm hcd
                  have := body_fold_callees
                    (fun c => (find_function_definition defs c).isSome = true)
                    (fun u op u'' hu => by
                      obtain ⟨t, ht, -⟩ := used_append lines defs fuel u [op] u'' hu
                      exact ⟨t, ht⟩)
                    (fun u op u'' hu hD =>
                      used_presence lines defs fuel u op [] u'' hu hD)
                    _ _ _ hbf c hcm hcd
                  exact hasName_append this
              · exact Or.inr ⟨hs, fun c hcm hcd => hasName_append (hc c hcm hcd)⟩
            · exact Or.inr hclosed

/-- Under the no-early-skip hypothesis (no root is, at its turn, already
reachable-and-defined from an earlier root, and no defined root is
repeated), every defined root ends up in the result. -/
theorem used_roots (lines : List Line) (defs : List FunctionDefinition) :
    ∀ (fuel : Nat) (used : List FunctionDefinition) (roots : List Line)
      (u' : List FunctionDefinition),
      get_used_functions lines defs fuel used roots = some u' →
      (∀ r ∈ roots, hasName used r = false) →
      List.Pairwise (fun a b => (find_function_definition defs b).isSome = true →
        ¬ Reach lines defs a b) roots →
      ∀ r ∈ roots, (find_function_definition defs r).isSome = true →
        hasName u' r = true := by
  intro fuel
  induction fuel with
  | zero =>
    intro used roots u' h hnot hpw r hr hdef
    cases roots with
    | nil => simp at hr
    | cons n rest =>
      by_cases hv : (find_function_definition used n).isSome = true
      · have := hnot n (by simp)
        rw [hasName] at this
        rw [this] at hv
        exact absurd hv (by simp)
      · rw [used_step_zero rest (by simpa using hv)] at h
        exact absurd h (by simp)
  | succ fuel ih =>
    intro used roots u' h hnot hpw r hr hdef
    cases roots with
    | nil => simp at hr
    | cons n rest =>
      by_cases hv : (find_function_definition used n).isSome = true
      · have := hnot n (by simp)
        rw [hasName] at this
        rw [this] at hv
        exact absurd hv (by simp)
      · have hv' : (find_function_definition used n).isSome = false := by simpa using hv
        obtain ⟨hhead, htail⟩ := List.pairwise_cons.mp hpw
        cases hd : find_function_definition defs n with
        | none =>
          rw [used_step_undef fuel rest hv' hd] at h
          rcases List.mem_cons.mp hr with rfl | hr'
          · rw [hd] at hdef
            exact absurd hdef (by simp)
          · exact ih used rest u' h (fun r' hr' => hnot r' (by simp [hr'])) htail r hr' hdef
        | some d =>
          rw [used_step_found fuel rest hv' hd] at h
          cases hbf : body_fold lines
              (fun u op => get_used_functions lines defs fuel u [op]) (used ++ [d])
              (List.range' (d.line_start_index + 1) (d.line_count - 1)) with
          | none => rw [hbf] at h; simp at h
          | some u₂ =>
            rw [hbf] at h
            have hdn : d.name = n := find_name_eq hd
            obtain ⟨t₁, ht₁, hP₁⟩ := body_fold_append
              (fun e => find_function_definition defs e.name = some e)
              (fun u op u'' hu => used_append lines defs fuel u [op] u'' hu)
              _ _ _ hbf
            rcases List.mem_cons.mp hr with rfl | hr'
            · obtain ⟨t₂, rfl, -⟩ := used_append lines defs fuel u₂ rest u' h
              refine hasName_append (hasName_of_mem ?_ hdn)
              rw [ht₁]
              simp
            · refine ih u₂ rest u' h ?_ htail r hr' hdef
              intro r' hrr
              by_contra hcon
              have hcon' : hasName u₂ r' = true := by simpa using hcon
              obtain ⟨e, he, hen⟩ := mem_of_hasName hcon'
              have hsound := body_fold_sound
                (fun op e => Reach lines defs op e.name)
                (fun u op u'' hu => fun e he => by
                  rcases used_sound lines defs fuel u [op] u'' hu e he with h₁ | ⟨m, hm, hrm⟩
                  · exact Or.inl h₁
                  · rw [List.mem_singleton] at hm
                    exact Or.inr (hm ▸ hrm))
                _ _ _ hbf e he
              have hmemcases : e ∈ used ∨ e = d ∨ e ∈ t₁ := by
                rw [ht₁] at he
                rcases List.mem_append.mp he with h₁ | h₁
                · rcases List.mem_append.mp h₁ with h₂ | h₂
                  · exact Or.inl h₂
                  · rw [List.mem_singleton] at h₂
                    exact Or.inr (Or.inl h₂)
                · exact Or.inr (Or.inr h₁)
              rcases hmemcases with hecase | hecase | hecase
              · have : hasName used r' = true := hasName_of_mem hecase hen
                rw [hnot r' (by simp [hrr])] at this
                exact absurd this (by simp)
              · subst hecase
                rw [hdn] at hen
                refine hhead r' hrr (by rw [← hen, hd]; rfl) ?_
                rw [← hen]
                exact Relation.ReflTransGen.refl
              · have hdefr : (find_function_definition defs r').isSome = true := by
                  rw [← hen, hP₁ e hecase]
                  rfl
                rcases hsound with h₁ | ⟨op, hop, hreach⟩
                · rcases List.mem_append.mp h₁ with h₂ | h₂
                  · have : hasName used r' = true := hasName_of_mem h₂ hen
                    rw [hnot r' (by simp [hrr])] at this
                    exact absurd this (by simp)
                  · rw [List.mem_singleton] at h₂
                    subst h₂
                    rw [hdn] at hen
                    refine hhead r' hrr (by rw [← hen, hd]; rfl) ?_
                    rw [← hen]
                    exact Relation.ReflTransGen.refl
                · refine hhead r' hrr hdefr ?_
                  refine Relation.ReflTransGen.head ⟨d, hd, hop⟩ ?_
                  rw [hen] at hreach
                  exact hreach

/-- Chaining closure: from a present name, every reachable defined name
is present. -/
theorem used_reach_closed (lines : List Line) (defs : List FunctionDefinition)
    (used : List FunctionDefinition)
    (hcl : ∀ e ∈ used, find_function_definition defs e.name = some e ∧
      ∀ c ∈ calleesOf lines e,
        (find_function_definition defs c).isSome = true → hasName used c = true) :
    ∀ a b, Reach lines defs a b → hasName used a = true →
      (find_function_definition defs b).isSome = true → hasName used b = true := by
  intro a b hr
  induction hr using Relation.ReflTransGen.head_induction_on with
  | refl => exact fun hb _ => hb
  | @head x c hstep htail ih =>
    intro ha hdefb
    obtain ⟨d, hda, hmem⟩ := hstep
    obtain ⟨e, he, hen⟩ := mem_of_hasName ha
    obtain ⟨hself, hcallees⟩ := hcl e he
    rw [hen, hda] at hself
    injection hself with hself
    rw [hself] at hmem
    have hdefc : (find_function_definition defs c).isSome = true := by
      rcases Relation.ReflTransGen.cases_head htail with heq | ⟨c', ⟨d', hd', -⟩, -⟩
      · rw [heq]
        exact hdefb
      · rw [hd']
        rfl
    exact ih (hcallees c hmem hdefc) hdefb

/-! ### Cleaning-stage lemmas -/

theorem get_cleaned_function_name {lines : List Line} {f : FunctionDefinition}
    {nli : Nat} {cf : CleanedFunction}
    (h : get_cleaned_function lines f nli = some cf) : cf.name = f.name := by
  rw [get_cleaned_function] at h
  cases hb : build_pairs lines
      (List.range' (f.line_start_index + 1) (f.line_count - 1)) with
  | none => rw [hb] at h; simp at h
  | some ps =>
    rw [hb] at h
    injection h with h
    rw [← h]

theorem get_cleaned_function_isSome {lines : List Line} {f : FunctionDefinition}
    (nli : Nat)
    (h : (build_pairs lines
      (List.range' (f.line_start_index + 1) (f.line_count - 1))).isSome = true) :
    (get_cleaned_function lines f nli).isSome = true := by
  rw [get_cleaned_function]
  obtain ⟨ps, hps⟩ := Option.isSome_iff_exists.mp h
  rw [hps]
  rfl

theorem cleaned_loop_names (lines : List Line) (used : List FunctionDefinition)
    (nli : Nat) :
    ∀ (defsL : List FunctionDefinition) (cfs : List CleanedFunction),
      cleaned_functions_loop lines used nli defsL = some cfs →
      cfs.map (fun cf => cf.name) =
        (defsL.filter fun fd => hasName used fd.name).map fun fd => fd.name := by
  intro defsL
  induction defsL with
  | nil =>
    intro cfs h
    rw [cleaned_functions_loop] at h
    injection h with h
    simp [← h]
  | cons fd rest ih =>
    intro cfs h
    rw [cleaned_functions_loop] at h
    cases hf : find_function_definition used fd.name with
    | none =>
      simp only [hf] at h
      rw [List.filter_cons_of_neg (by simp [hasName, hf])]
      exact ih cfs h
    | some f =>
      simp only [hf] at h
      cases hc : get_cleaned_function lines f nli with
      | none => simp [hc] at h
      | some cf =>
        simp only [hc] at h
        cases hrest : cleaned_functions_loop lines used nli rest with
        | none => simp [hrest] at h
        | some cfs' =>
          simp only [hrest] at h
          injection h with h
          rw [List.filter_cons_of_pos (by simp [hasName, hf])]
          rw [← h]
          simp only [List.map_cons]
          rw [ih cfs' hrest, get_cleaned_function_name hc, find_name_eq hf]

theorem cleaned_loop_isSome (lines : List Line) (used : List FunctionDefinition)
    (nli : Nat)
    (hok : ∀ f ∈ used, (build_pairs lines
      (List.range' (f.line_start_index + 1) (f.line_count - 1))).isSome = true) :
    ∀ defsL : List FunctionDefinition,
      (cleaned_functions_loop lines used nli defsL).isSome = true := by
  intro defsL
  induction defsL with
  | nil => rw [cleaned_functions_loop]; rfl
  | cons fd rest ih =>
    rw [cleaned_functions_loop]
    cases hf : find_function_definition used fd.name with
    | none => exact ih
    | some f =>
      have hfmem : f ∈ used := List.mem_of_find?_eq_some hf
      obtain ⟨cf, hcf⟩ := Option.isSome_iff_exists.mp
        (get_cleaned_function_isSome nli (hok f hfmem))
      obtain ⟨cfs', hcfs'⟩ := Option.isSome_iff_exists.mp ih
      simp [hf, hcf, hcfs']

theorem cleaned_loop_empty_used (lines : List Line) (nli : Nat) :
    ∀ defsL : List FunctionDefinition,
      cleaned_functions_loop lines [] nli defsL = some [] := by
  intro defsL
  induction defsL with
  | nil => rfl
  | cons fd rest ih => rw [cleaned_functions_loop]; exact ih

theorem used_no_valid_roots (lines : List Line) (defs : List FunctionDefinition) :
    ∀ (roots : List Line) (fuel : Nat), roots.length ≤ fuel →
      (∀ r ∈ roots, find_function_definition defs r = none) →
      get_used_functions lines defs fuel [] roots = some [] := by
  intro roots
  induction roots with
  | nil => intro fuel _ _; rw [used_nil]
  | cons n rest ih =>
    intro fuel hlen hnone
    cases fuel with
    | zero => simp at hlen
    | succ fuel =>
      rw [used_step_undef fuel rest (by rfl) (hnone n (by simp))]
      exact ih fuel (by simpa using Nat.le_of_succ_le_succ (by simpa using hlen))
        fun r hr => hnone r (by simp [hr])

theorem count_name_filter :
    ∀ {defsL : List FunctionDefinition} {P : FunctionDefinition → Bool} {n : Line},
      ((defsL.map fun d => d.name).Nodup) →
      (∃ fd ∈ defsL, fd.name = n ∧ P fd = true) →
      ((defsL.filter P).map fun d => d.name).count n = 1 := by
  intro defsL
  induction defsL with
  | nil =>
    intro P n _ hex
    obtain ⟨fd, hfd, -⟩ := hex
    simp at hfd
  | cons fd rest ih =>
    intro P n hnd hex
    rw [List.map_cons, List.nodup_cons] at hnd
    obtain ⟨hnin, hndrest⟩ := hnd
    by_cases hname : fd.name = n
    · have hPfd : P fd = true := by
        obtain ⟨w, hw, hwn, hwP⟩ := hex
        rcases List.mem_cons.mp hw with rfl | hw'
        · exact hwP
        · have hcontra : fd.name ∈ rest.map fun d => d.name := by
            rw [hname, ← hwn]
            exact List.mem_map_of_mem _ hw'
          exact absurd hcontra hnin
      rw [List.filter_cons_of_pos hPfd, List.map_cons, hname, List.count_cons_self]
      have hzero : ((rest.filter P).map fun d => d.name).count n = 0 := by
        rw [List.count_eq_zero]
        intro hmem
        obtain ⟨w, hw, hwn⟩ := List.mem_map.mp hmem
        have : n ∈ rest.map fun d => d.name := by
          rw [← hwn]
          exact List.mem_map_of_mem _ (List.mem_of_mem_filter hw)
        rw [← hname] at this
        exact hnin this
      omega
    · have hex' : ∃ w ∈ rest, w.name = n ∧ P w = true := by
        obtain ⟨w, hw, hwn, hwP⟩ := hex
        rcases List.mem_cons.mp hw with rfl | hw'
        · exact absurd hwn hname
        · exact ⟨w, hw', hwn, hwP⟩
      by_cases hPfd : P fd = true
      · rw [List.filter_cons_of_pos hPfd, List.map_cons,
          List.count_cons_of_ne (by simpa using fun h => hname h.symm)]
        exact ih hndrest hex'
      · rw [List.filter_cons_of_neg (by simpa using hPfd)]
        exact ih hndrest hex'

/-! ### Claims C1, C2, C5, C9 -/

/-- C5: when a batch name is already present in the accumulated
used-functions list, the resolver returns from the entire batch with the
accumulated list unchanged: no sibling name later in the same batch is
examined or added.  This applies to the root batch and to the
single-element batches spawned per `call` operand alike. -/
theorem claim_C5_early_return (lines : List Line)
    (defs used : List FunctionDefinition) (fuel : Nat) (n : Line) (rest : List Line)
    (h : (find_function_definition used n).isSome = true) :
    get_used_functions lines defs fuel used (n :: rest) = some used :=
  used_step_visited fuel rest h

/-- Witness for C5: with `"a"` already used, the batch `["a", "b"]`
returns immediately and `"b"` (although defined in `defs`) is not added. -/
theorem claim_C5_early_return_witness :
    get_used_functions [] [⟨"b".toList, 0, 2⟩] 9 [⟨"a".toList, 0, 2⟩]
      ("a".toList :: ["b".toList]) = some [⟨"a".toList, 0, 2⟩] :=
  claim_C5_early_return [] [⟨"b".toList, 0, 2⟩] [⟨"a".toList, 0, 2⟩] 9
    ("a".toList) ["b".toList] (by decide)

/-- C9: the core pipeline — definition scan, reachability resolution,
cleaning, rendering — always produces a result (never raises), and on
empty input, or when no root name matches any definition, the output is
empty. -/
theorem claim_C9_pipeline_total (lines roots : List Line) :
    (write_cleaned_disasm lines roots).isSome = true ∧
    (lines = [] → write_cleaned_disasm lines roots = some []) ∧
    ((∀ r ∈ roots, find_function_definition (get_function_definitions lines) r = none) →
      write_cleaned_disasm lines roots = some []) := by
  refine ⟨?_, ?_, ?_⟩
  · have hb : ∀ d ∈ get_function_definitions lines, BodyOK lines d :=
      fun d hd => scan_body_ok hd
    have hsome := used_some lines (get_function_definitions lines) hb
      (used_fuel (get_function_definitions lines) roots) [] roots (by
        rw [used_fuel, remaining_nil])
    obtain ⟨used, hused⟩ := Option.isSome_iff_exists.mp hsome
    have hok : ∀ f ∈ used, (build_pairs lines
        (List.range' (f.line_start_index + 1) (f.line_count - 1))).isSome = true := by
      intro f hf
      obtain ⟨t, ht, hself⟩ := used_append lines (get_function_definitions lines) _ [] roots
        used hused
      rw [ht] at hf
      simp only [List.nil_append] at hf
      have hfd := hself f hf
      exact build_pairs_isSome (body_range_ok (scan_body_ok (find_mem hfd)))
    obtain ⟨cfs, hcfs⟩ := Option.isSome_iff_exists.mp
      (cleaned_loop_isSome lines used 0 hok (get_function_definitions lines))
    simp only [write_cleaned_disasm, get_cleaned_functions, hused, hcfs]
    rfl
  · intro h
    subst h
    have h1 : get_used_functions [] (get_function_definitions [])
        (used_fuel (get_function_definitions []) roots) [] roots = some [] :=
      used_no_valid_roots [] (get_function_definitions []) roots _
        (by rw [used_fuel]; omega) (fun r _ => rfl)
    simp only [write_cleaned_disasm, get_cleaned_functions, h1, cleaned_loop_empty_used]
    rfl
  · intro hnone
    have h1 : get_used_functions lines (get_function_definitions lines)
        (used_fuel (get_function_definitions lines) roots) [] roots = some [] :=
      used_no_valid_roots lines (get_function_definitions lines) roots _
        (by rw [used_fuel]; omega) hnone
    simp only [write_cleaned_disasm, get_cleaned_functions, h1, cleaned_loop_empty_used]
    rfl

/-- Witness for C9 at empty input. -/
theorem claim_C9_pipeline_total_witness :
    (write_cleaned_disasm [] ["x".toList]).isSome = true ∧
    write_cleaned_disasm [] ["x".toList] = some [] :=
  ⟨(claim_C9_pipeline_total [] ["x".toList]).1,
   (claim_C9_pipeline_total [] ["x".toList]).2.1 rfl⟩

/-- C2 (amended): soundness is unconditional — every function name in
the cleaned output is reachable from some root by a finite chain of
`call` edges.  The converse holds under two provisos forced by the code:
the scanner's definition names must be pairwise distinct (a duplicated
name is rendered once per homonymous definition), and no root may be
defined and already reachable from an earlier root (otherwise the early
`return` abandons the rest of the root batch).  Under these provisos
every function reachable from the roots that has a definition appears in
the rendered list exactly once. -/
theorem claim_C2_reachable_output (lines roots : List Line)
    (used : List FunctionDefinition) (cfs : List CleanedFunction)
    (hused : get_used_functions lines (get_function_definitions lines)
      (used_fuel (get_function_definitions lines) roots) [] roots = some used)
    (hcfs : get_cleaned_functions lines (get_function_definitions lines) used = some cfs) :
    (∀ cf ∈ cfs, ∃ r ∈ roots, Reach lines (get_function_definitions lines) r cf.name) ∧
    ((((get_function_definitions lines).map fun d => d.name).Nodup) →
      List.Pairwise (fun a b =>
        (find_function_definition (get_function_definitions lines) b).isSome = true →
        ¬ Reach lines (get_function_definitions lines) a b) roots →
      ∀ n, (find_function_definition (get_function_definitions lines) n).isSome = true →
        (∃ r ∈ roots, Reach lines (get_function_definitions lines) r n) →
        (cfs.map fun cf => cf.name).count n = 1) := by
  have hnames := cleaned_loop_names lines used 0 (get_function_definitions lines) cfs hcfs
  constructor
  · intro cf hcf
    have hmm : cf.name ∈ cfs.map fun cf => cf.name := List.mem_map_of_mem _ hcf
    rw [hnames] at hmm
    obtain ⟨fd, hfd, hfdn⟩ := List.mem_map.mp hmm
    have hhas : hasName used fd.name = true := by
      have := List.of_mem_filter hfd
      simpa using this
    obtain ⟨e, he, hen⟩ := mem_of_hasName hhas
    rcases used_sound lines (get_function_definitions lines) _ [] roots used hused e he
        with h₁ | ⟨m, hm, hr⟩
    · simp at h₁
    · refine ⟨m, hm, ?_⟩
      rw [← hfdn, ← hen]
      exact hr
  · intro hnd hpw n hdef hreach
    have hclosed : ∀ e ∈ used,
        find_function_definition (get_function_definitions lines) e.name = some e ∧
        ∀ c ∈ calleesOf lines e,
          (find_function_definition (get_function_definitions lines) c).isSome = true →
          hasName used c = true := by
      intro e he
      rcases used_closure lines (get_function_definitions lines) _ [] roots used hused e he
          with h₁ | h₁
      · simp at h₁
      · exact h₁
    have hin : hasName used n = true := by
      obtain ⟨r, hrin, hrReach⟩ := hreach
      have hdefr : (find_function_definition (get_function_definitions lines) r).isSome
          = true := by
        rcases Relation.ReflTransGen.cases_head hrReach with heq | ⟨c, ⟨d', hd', -⟩, -⟩
        · rw [heq]
          exact hdef
        · rw [hd']
          rfl
      have hroot : hasName used r = true :=
        used_roots lines (get_function_definitions lines) _ [] roots used hused
          (fun r _ => rfl) hpw r hrin hdefr
      exact used_reach_closed lines (get_function_definitions lines) used hclosed r n
        hrReach hroot hdef
    rw [hnames]
    refine count_name_filter hnd ?_
    obtain ⟨d, hd⟩ := Option.isSome_iff_exists.mp hdef
    exact ⟨d, find_mem hd, find_name_eq hd, by rw [find_name_eq hd]; exact hin⟩

/-- Witness for the amended C2 on a one-function listing. -/
theorem claim_C2_reachable_output_witness :
    (([⟨"b".toList, [⟨none, "ret".toList, []⟩]⟩] : List CleanedFunction).map
      fun cf => cf.name).count ("b".toList) = 1 :=
  (claim_C2_reachable_output (["b:", "  0: ret", ""].map String.toList) ["b".toList]
    [⟨"b".toList, 0, 2⟩] [⟨"b".toList, [⟨none, "ret".toList, []⟩]⟩]
    (by decide) (by decide)).2 (by decide) (by simp)
    ("b".toList) (by decide) ⟨"b".toList, by simp, Relation.ReflTransGen.refl⟩

/-- Counterexample to C2 as stated: with roots `["a", "a", "b"]` the
duplicate `"a"` triggers the early return from the whole root batch, so
the defined root `"b"` — reachable from a root by the empty chain of
`call` edges — is absent from the rendered output. -/
theorem claim_C2_counterexample :
    write_cleaned_disasm
      (["a:", "  0: ret", "", "b:", "  0: ret", ""].map String.toList)
      (["a", "a", "b"].map String.toList) =
      some ("a:\n  ret         \n\n".toList) ∧
    (find_function_definition
      (get_function_definitions
        (["a:", "  0: ret", "", "b:", "  0: ret", ""].map String.toList))
      ("b".toList)).isSome = true ∧
    Reach (["a:", "  0: ret", "", "b:", "  0: ret", ""].map String.toList)
      (get_function_definitions
        (["a:", "  0: ret", "", "b:", "  0: ret", ""].map String.toList))
      ("b".toList) ("b".toList) :=
  ⟨by decide, by decide, Relation.ReflTransGen.refl⟩

/-- C1: the shared-counter intent is visible in the code (the counter is
initialized once, before the loop over reachable functions, and passed
to every `get_cleaned_function` call), but a Python `int` argument is
passed by value, so the increment inside `get_cleaned_function` never
reaches the caller: every function is cleaned with counter value 0 and
synthesized labels collide across function boundaries.  Here the two
distinct jump targets — one inside `a`, one inside `b` — both receive
the label `$L0` in one output listing. -/
theorem claim_C1_label_counter_not_shared :
    write_cleaned_disasm
      (["a:", "  0: jmp 1", "  1: ret", "", "b:", "  0: jmp 1", "  1: ret", ""].map
        String.toList)
      (["a", "b"].map String.toList) =
      some (("a:\n  jmp         $L0\n$L0:\n  ret         \n\n" ++
        "b:\n  jmp         $L0\n$L0:\n  ret         \n\n").toList) := by decide

/-! ### Label Rewriter lemmas -/

theorem set_self {α : Type} :
    ∀ (l : List α) (i : Nat) (a : α), l[i]? = some a → l.set i a = l := by
  intro l
  induction l with
  | nil => intro i a h; simp at h
  | cons x xs ih =>
    intro i a h
    cases i with
    | zero =>
      simp only [List.getElem?_cons_zero, Option.some.injEq] at h
      simp [h]
    | succ i =>
      simp only [List.getElem?_cons_succ] at h
      simp [ih i a h]

theorem fst_eq_of_map_eq {ps qs : List (Instruction × CleanedInstruction)}
    (h : ps.map (fun p => p.1) = qs.map (fun p => p.1)) (m : Nat) :
    (ps[m]?).map (fun p => p.1) = (qs[m]?).map (fun p => p.1) := by
  rw [← List.getElem?_map, ← List.getElem?_map, h]

theorem find_target_congr (off : Line) :
    ∀ {ps qs : List (Instruction × CleanedInstruction)},
      ps.map (fun p => p.1) = qs.map (fun p => p.1) →
      find_target ps off = find_target qs off := by
  intro ps
  induction ps with
  | nil =>
    intro qs h
    cases qs with
    | nil => rfl
    | cons q qs => simp at h
  | cons p ps ih =>
    intro qs h
    cases qs with
    | nil => simp at h
    | cons q qs =>
      simp only [List.map_cons, List.cons.injEq] at h
      obtain ⟨h1, h2⟩ := h
      rw [find_target, find_target, h1, ih h2]

theorem find_target_lt {off : Line} :
    ∀ {ps : List (Instruction × CleanedInstruction)} {t : Nat},
      find_target ps off = some t → t < ps.length := by
  intro ps
  induction ps with
  | nil => intro t h; rw [find_target] at h; exact absurd h (by simp)
  | cons p rest ih =>
    intro t h
    rw [find_target] at h
    by_cases hoff : (p.1.byte_offset == off) = true
    · rw [if_pos hoff] at h
      injection h with h
      simp [← h]
    · rw [if_neg hoff] at h
      cases hr : find_target rest off with
      | none => rw [hr] at h; simp at h
      | some t' =>
        rw [hr] at h
        simp only [Option.map_some'] at h
        injection h with h
        have := ih hr
        simp only [List.length_cons]
        omega

theorem build_pairs_shape {lines : List Line} :
    ∀ {idxs : List Nat} {ps : List (Instruction × CleanedInstruction)},
      build_pairs lines idxs = some ps →
      ∀ p ∈ ps, p.2.label = none ∧ p.2.operation = p.1.operation ∧
        p.2.operands = p.1.operands := by
  intro idxs
  induction idxs with
  | nil =>
    intro ps h p hp
    rw [build_pairs] at h
    injection h with h
    rw [← h] at hp
    simp at hp
  | cons k rest ih =>
    intro ps h p hp
    rw [build_pairs] at h
    cases hl : lines[k]? with
    | none => rw [hl] at h; simp at h
    | some l =>
      rw [hl] at h
      cases hpi : parse_instruction l with
      | none => simp [hpi] at h
      | some inst =>
        simp only [hpi] at h
        cases hrest : build_pairs lines rest with
        | none => rw [hrest] at h; simp at h
        | some ps' =>
          rw [hrest] at h
          injection h with h
          rw [← h] at hp
          rcases List.mem_cons.mp hp with rfl | hp'
          · exact ⟨rfl, rfl, rfl⟩
          · exact ih hrest p hp'

theorem rewrite_good_init {lines : List Line} {idxs : List Nat}
    {ps : List (Instruction × CleanedInstruction)}
    (h : build_pairs lines idxs = some ps) : RewriteGood ps 0 ps := by
  refine ⟨rfl, rfl, ?_, ?_, ?_, ?_⟩
  · intro m p hp
    exact (build_pairs_shape h p (List.getElem?_mem hp)).2.1
  · intro m p hp _
    exact (build_pairs_shape h p (List.getElem?_mem hp)).2.2
  · intro m p t hm
    omega
  · intro m p hp hlab
    rw [(build_pairs_shape h p (List.getElem?_mem hp)).1] at hlab
    simp at hlab

theorem getElem?_lt_len {α : Type} {l : List α} {i : Nat} {a : α}
    (h : l[i]? = some a) : i < l.length := by
  by_contra hc
  rw [List.getElem?_eq_none (by omega)] at h
  exact absurd h (by simp)

theorem getElem?_set_same {α : Type} {l : List α} {i : Nat} (a : α)
    (h : i < l.length) : (l.set i a)[i]? = some a := by
  simp [List.getElem?_set_self', h]

theorem getElem?_set_other {α : Type} {l : List α} {i j : Nat} (a : α)
    (h : j ≠ i) : (l.set i a)[j]? = l[j]? :=
  List.getElem?_set_ne (Ne.symm h)

theorem double_set_pointwise {α : Type} {l : List α} {k t : Nat} (a b : α)
    (hk : k < l.length) (ht : t < l.length) (m : Nat) :
    ((l.set k a).set t b)[m]? =
      if m = t then some b else if m = k then some a else l[m]? := by
  by_cases hmt : m = t
  · subst hmt
    rw [if_pos rfl]
    exact getElem?_set_same b (by rw [List.length_set]; exact ht)
  · rw [if_neg hmt, getElem?_set_other b hmt]
    by_cases hmk : m = k
    · subst hmk
      rw [if_pos rfl]
      exact getElem?_set_same a hk
    · rw [if_neg hmk, getElem?_set_other a hmk]

theorem map_fst_set :
    ∀ (l : List (Instruction × CleanedInstruction)) (i : Nat)
      (a p : Instruction × CleanedInstruction), l[i]? = some p → a.1 = p.1 →
      (l.set i a).map (fun q => q.1) = l.map (fun q => q.1) := by
  intro l
  induction l with
  | nil => intro i a p h _; simp at h
  | cons x xs ih =>
    intro i a p h hfst
    cases i with
    | zero =>
      simp only [List.getElem?_cons_zero, Option.some.injEq] at h
      subst h
      simp only [List.set_cons_zero, List.map_cons, hfst]
    | succ i =>
      simp only [List.getElem?_cons_succ] at h
      simp only [List.set_cons_succ, List.map_cons, ih i a p h hfst]

theorem rewrite_step_none {ps : List (Instruction × CleanedInstruction)}
    {nli k : Nat} (hk : ps[k]? = none) : rewrite_step ps nli k = (ps, nli) := by
  simp [rewrite_step, hk]

theorem rewrite_step_nonjump {ps : List (Instruction × CleanedInstruction)}
    {nli k : Nat} {raw : Instruction} {oldC : CleanedInstruction}
    (hk : ps[k]? = some (raw, oldC)) (hj : is_jump raw.operation = false) :
    rewrite_step ps nli k = (ps, nli) := by
  simp [rewrite_step, hk, hj]

theorem rewrite_step_nores {ps : List (Instruction × CleanedInstruction)}
    {nli k : Nat} {raw : Instruction} {oldC : CleanedInstruction}
    (hk : ps[k]? = some (raw, oldC)) (hj : is_jump raw.operation = true)
    (hf : find_target ps raw.operands = none) :
    rewrite_step ps nli k = (ps, nli) := by
  simp [rewrite_step, hk, hj, hf]

theorem rewrite_step_reuse {ps : List (Instruction × CleanedInstruction)}
    {nli k t : Nat} {raw rawT : Instruction} {oldC oldCT : CleanedInstruction}
    {labT : Line}
    (hk : ps[k]? = some (raw, oldC)) (hj : is_jump raw.operation = true)
    (hf : find_target ps raw.operands = some t)
    (ht : ps[t]? = some (rawT, oldCT)) (hl : oldCT.label = some labT) :
    rewrite_step ps nli k =
      ((ps.set k (raw, ⟨oldC.label, oldC.operation, labT⟩)).set t
        (rawT, oldCT), nli) := by
  simp [rewrite_step, hk, hj, hf, ht, hl]

theorem rewrite_step_fresh {ps : List (Instruction × CleanedInstruction)}
    {nli k t : Nat} {raw rawT : Instruction} {oldC oldCT : CleanedInstruction}
    (hk : ps[k]? = some (raw, oldC)) (hj : is_jump raw.operation = true)
    (hf : find_target ps raw.operands = some t)
    (ht : ps[t]? = some (rawT, oldCT)) (hl : oldCT.label = none) :
    rewrite_step ps nli k =
      ((ps.set k (raw, ⟨oldC.label, oldC.operation, labelString nli⟩)).set t
        (rawT, ⟨some (labelString nli), oldCT.operation, oldCT.operands⟩),
        nli + 1) := by
  simp [rewrite_step, hk, hj, hf, ht, hl]

theorem rewrite_good_skip {ps₀ ps : List (Instruction × CleanedInstruction)}
    {k : Nat} (hg : RewriteGood ps₀ k ps)
    (hk : ∀ p, ps[k]? = some p →
      is_jump p.1.operation = false ∨ find_target ps₀ p.1.operands = none) :
    RewriteGood ps₀ (k + 1) ps := by
  obtain ⟨hlen, hfst, hop, hraw, hjump, hlab⟩ := hg
  refine ⟨hlen, hfst, hop, ?_, ?_, ?_⟩
  · intro m p hp hcond
    apply hraw m p hp
    rcases hcond with h1 | h2 | h3
    · left; omega
    · right; left; exact h2
    · right; right; exact h3
  · intro m p t hm hp hpj hpt
    by_cases hmk : m = k
    · subst hmk
      rcases hk p hp with h2 | h3
      · rw [hpj] at h2; simp at h2
      · rw [hpt] at h3; simp at h3
    · exact hjump m p t (by omega) hp hpj hpt
  · intro m p hp hpl
    obtain ⟨j, q, hj2, hq, hqj, hqt⟩ := hlab m p hp hpl
    exact ⟨j, q, by omega, hq, hqj, hqt⟩

theorem rewrite_set_good {ps₀ ps : List (Instruction × CleanedInstruction)}
    {k t : Nat} {raw rawT : Instruction} {oldC oldCT ct' : CleanedInstruction}
    {lab : Line}
    (hg : RewriteGood ps₀ k ps)
    (hk : ps[k]? = some (raw, oldC))
    (ht : ps[t]? = some (rawT, oldCT))
    (hj : is_jump raw.operation = true)
    (hft : find_target ps raw.operands = some t)
    (hct1 : ct'.label = some lab)
    (hct2 : ct'.operation = oldCT.operation)
    (hct3 : ct'.operands = oldCT.operands)
    (hpres : ∀ ℓ₀, oldCT.label = some ℓ₀ → lab = ℓ₀) :
    RewriteGood ps₀ (k + 1)
      ((ps.set k (raw, ⟨oldC.label, oldC.operation, lab⟩)).set t (rawT, ct')) := by
  obtain ⟨hlen, hfst, hop, hraw, hjump, hlab⟩ := hg
  have hklt : k < ps.length := getElem?_lt_len hk
  have htlt : t < ps.length := getElem?_lt_len ht
  have hft₀ : find_target ps₀ raw.operands = some t := by
    rw [← find_target_congr raw.operands hfst]; exact hft
  have hkt : k = t → raw = rawT ∧ oldC = oldCT := by
    intro h
    have ht2 := ht
    rw [← h, hk] at ht2
    injection ht2 with ht2
    injection ht2 with h1 h2
    exact ⟨h1, h2⟩
  have hpt : ∀ m, ((ps.set k (raw, ⟨oldC.label, oldC.operation, lab⟩)).set t
      (rawT, ct'))[m]? =
      if m = t then some (rawT, ct')
      else if m = k then some (raw, ⟨oldC.label, oldC.operation, lab⟩)
      else ps[m]? :=
    double_set_pointwise (raw, ⟨oldC.label, oldC.operation, lab⟩) (rawT, ct') hklt htlt
  have hops_pres : ∀ (n : Nat) (q : Instruction × CleanedInstruction),
      n ≠ k → ps[n]? = some q →
      ∃ q', ((ps.set k (raw, ⟨oldC.label, oldC.operation, lab⟩)).set t
        (rawT, ct'))[n]? = some q' ∧ q'.1 = q.1 ∧ q'.2.operands = q.2.operands := by
    intro n q hn hq
    rw [hpt n]
    by_cases hnt : n = t
    · rw [if_pos hnt]
      have hq2 := hq
      rw [hnt, ht] at hq2
      injection hq2 with hq2
      refine ⟨(rawT, ct'), rfl, ?_, ?_⟩
      · simp [← hq2]
      · simp [← hq2, hct3]
    · rw [if_neg hnt, if_neg hn]
      exact ⟨q, hq, rfl, rfl⟩
  have hlabel_pres : ∀ (n : Nat) (q : Instruction × CleanedInstruction) (ℓ' : Line),
      ps[n]? = some q → q.2.label = some ℓ' →
      ∃ q', ((ps.set k (raw, ⟨oldC.label, oldC.operation, lab⟩)).set t
        (rawT, ct'))[n]? = some q' ∧ q'.2.label = some ℓ' := by
    intro n q ℓ' hq hql
    rw [hpt n]
    by_cases hnt : n = t
    · rw [if_pos hnt]
      have hq2 := hq
      rw [hnt, ht] at hq2
      injection hq2 with hq2
      rw [← hq2] at hql
      have hle : lab = ℓ' := hpres ℓ' hql
      refine ⟨(rawT, ct'), rfl, ?_⟩
      show ct'.label = some ℓ'
      rw [hct1, hle]
    · by_cases hnk : n = k
      · rw [if_neg hnt, if_pos hnk]
        have hq2 := hq
        rw [hnk, hk] at hq2
        injection hq2 with hq2
        rw [← hq2] at hql
        exact ⟨(raw, ⟨oldC.label, oldC.operation, lab⟩), rfl, hql⟩
      · rw [if_neg hnt, if_neg hnk]
        exact ⟨q, hq, hql⟩
  have hold : ∀ (m : Nat) (p : Instruction × CleanedInstruction), m ≠ k →
      ((ps.set k (raw, ⟨oldC.label, oldC.operation, lab⟩)).set t
        (rawT, ct'))[m]? = some p →
      ∃ q, ps[m]? = some q ∧ q.1 = p.1 ∧ q.2.operands = p.2.operands := by
    intro m p hm hp
    rw [hpt m] at hp
    by_cases hmt : m = t
    · rw [if_pos hmt] at hp
      injection hp with hp
      refine ⟨(rawT, oldCT), by rw [hmt]; exact ht, ?_, ?_⟩
      · simp [← hp]
      · simp [← hp, hct3]
    · rw [if_neg hmt, if_neg hm] at hp
      exact ⟨p, hp, rfl, rfl⟩
  refine ⟨?_, ?_, ?_, ?_, ?_, ?_⟩
  · simp only [List.length_set]
    exact hlen
  · have hq : ∃ q, (ps.set k (raw, ⟨oldC.label, oldC.operation, lab⟩))[t]? =
        some q ∧ q.1 = rawT := by
      by_cases htk : t = k
      · refine ⟨(raw, ⟨oldC.label, oldC.operation, lab⟩), ?_, ?_⟩
        · rw [htk]
          exact getElem?_set_same _ hklt
        · exact (hkt htk.symm).1
      · exact ⟨(rawT, oldCT), by rw [getElem?_set_other _ htk]; exact ht, rfl⟩
    obtain ⟨q, hq1, hq2⟩ := hq
    rw [map_fst_set _ t (rawT, ct') q hq1 hq2.symm,
      map_fst_set ps k (raw, ⟨oldC.label, oldC.operation, lab⟩) (raw, oldC) hk rfl,
      hfst]
  · intro m p hp
    rw [hpt m] at hp
    by_cases hmt : m = t
    · rw [if_pos hmt] at hp
      injection hp with hp
      subst hp
      show ct'.operation = rawT.operation
      rw [hct2]
      exact hop t (rawT, oldCT) ht
    · rw [if_neg hmt] at hp
      by_cases hmk : m = k
      · rw [if_pos hmk] at hp
        injection hp with hp
        subst hp
        show oldC.operation = raw.operation
        exact hop k (raw, oldC) hk
      · rw [if_neg hmk] at hp
        exact hop m p hp
  · intro m p hp hcond
    rw [hpt m] at hp
    by_cases hmt : m = t
    · rw [if_pos hmt] at hp
      injection hp with hp
      subst hp
      show ct'.operands = rawT.operands
      rw [hct3]
      apply hraw t (rawT, oldCT) ht
      rcases hcond with h1 | h2 | h3
      · left; omega
      · right; left; exact h2
      · right; right; exact h3
    · rw [if_neg hmt] at hp
      by_cases hmk : m = k
      · rw [if_pos hmk] at hp
        injection hp with hp
        subst hp
        exfalso
        rcases hcond with h1 | h2 | h3
        · omega
        · have h2' : is_jump raw.operation = false := h2
          rw [hj] at h2'
          simp at h2'
        · have h3' : find_target ps₀ raw.operands = none := h3
          rw [hft₀] at h3'
          simp at h3'
      · rw [if_neg hmk] at hp
        apply hraw m p hp
        rcases hcond with h1 | h2 | h3
        · left; omega
        · right; left; exact h2
        · right; right; exact h3
  · intro m p t' hm hp hpj hpt'
    by_cases hmk : m = k
    · subst hmk
      rw [hpt m] at hp
      by_cases hkt' : m = t
      · rw [if_pos hkt'] at hp
        injection hp with hp
        subst hp
        obtain ⟨hrr, hcc⟩ := hkt hkt'
        have hpt'' : find_target ps₀ rawT.operands = some t' := hpt'
        rw [← hrr, hft₀] at hpt''
        injection hpt'' with hpt''
        have htt : t' = t := hpt''.symm
        subst htt
        refine ⟨(rawT, ct'), lab, ?_, hct1, ?_, ?_⟩
        · rw [hpt t', if_pos rfl]
        · intro hne
          exact absurd hkt' hne
        · intro _
          show ct'.operands = rawT.operands
          rw [hct3]
          have h4 := hraw m (raw, oldC) hk (Or.inl (Nat.le_refl m))
          rw [hcc, hrr] at h4
          exact h4
      · rw [if_neg hkt', if_pos rfl] at hp
        injection hp with hp
        subst hp
        have hpt'' : find_target ps₀ raw.operands = some t' := hpt'
        rw [hft₀] at hpt''
        injection hpt'' with hpt''
        have htt : t' = t := hpt''.symm
        subst htt
        refine ⟨(rawT, ct'), lab, ?_, hct1, ?_, ?_⟩
        · rw [hpt t', if_pos rfl]
        · intro _
          rfl
        · intro heq'
          exact absurd heq' hkt'
    · have hmk' : m < k := by omega
      obtain ⟨q, hq, hq1, hq2⟩ := hold m p hmk hp
      have hqj : is_jump q.1.operation = true := by rw [hq1]; exact hpj
      have hqt' : find_target ps₀ q.1.operands = some t' := by rw [hq1]; exact hpt'
      obtain ⟨pt2, ℓ, hptq, hptl, hne, heq⟩ := hjump m q t' hmk' hq hqj hqt'
      obtain ⟨pt', hpt'q, hpt'l⟩ := hlabel_pres t' pt2 ℓ hptq hptl
      refine ⟨pt', ℓ, hpt'q, hpt'l, ?_, ?_⟩
      · intro hne'
        rw [← hq2]
        exact hne hne'
      · intro heq'
        rw [← hq2, ← hq1]
        exact heq heq'
  · intro m p hp hpl
    by_cases hmt : m = t
    · subst hmt
      by_cases hkt' : k = m
      · obtain ⟨hrr, _⟩ := hkt hkt'
        refine ⟨k, (rawT, ct'), by omega, ?_, ?_, ?_⟩
        · rw [hpt k]
          rw [if_pos hkt']
        · show is_jump rawT.operation = true
          rw [← hrr]
          exact hj
        · show find_target ps₀ rawT.operands = some m
          rw [← hrr, hft₀]
      · refine ⟨k, (raw, ⟨oldC.label, oldC.operation, lab⟩), by omega, ?_, hj, hft₀⟩
        rw [hpt k, if_neg hkt', if_pos rfl]
    · by_cases hmk : m = k
      · subst hmk
        rw [hpt m, if_neg hmt, if_pos rfl] at hp
        injection hp with hp
        subst hp
        have hpl' : oldC.label.isSome = true := hpl
        obtain ⟨j, q, hjk, hq, hqj, hqt⟩ := hlab m (raw, oldC) hk hpl'
        obtain ⟨q', hq', hq'1, _⟩ := hops_pres j q (by omega) hq
        refine ⟨j, q', by omega, hq', ?_, ?_⟩
        · rw [hq'1]; exact hqj
        · rw [hq'1]; exact hqt
      · rw [hpt m, if_neg hmt, if_neg hmk] at hp
        obtain ⟨j, q, hjk, hq, hqj, hqt⟩ := hlab m p hp hpl
        obtain ⟨q', hq', hq'1, _⟩ := hops_pres j q (by omega) hq
        refine ⟨j, q', by omega, hq', ?_, ?_⟩
        · rw [hq'1]; exact hqj
        · rw [hq'1]; exact hqt

theorem rewrite_step_good {ps₀ ps : List (Instruction × CleanedInstruction)}
    {k nli : Nat} (hg : RewriteGood ps₀ k ps) :
    RewriteGood ps₀ (k + 1) (rewrite_step ps nli k).1 := by
  cases hk : ps[k]? with
  | none =>
    rw [rewrite_step_none hk]
    exact rewrite_good_skip hg (fun p hp => by rw [hk] at hp; cases hp)
  | some pc =>
    obtain ⟨raw, oldC⟩ := pc
    cases hj : is_jump raw.operation with
    | false =>
      rw [rewrite_step_nonjump hk hj]
      refine rewrite_good_skip hg (fun p hp => ?_)
      rw [hk] at hp
      injection hp with hp
      subst hp
      exact Or.inl hj
    | true =>
      cases hf : find_target ps raw.operands with
      | none =>
        rw [rewrite_step_nores hk hj hf]
        refine rewrite_good_skip hg (fun p hp => ?_)
        rw [hk] at hp
        injection hp with hp
        subst hp
        refine Or.inr ?_
        show find_target ps₀ raw.operands = none
        rw [← find_target_congr raw.operands hg.2.1]
        exact hf
      | some t =>
        have htlt : t < ps.length := find_target_lt hf
        cases ht : ps[t]? with
        | none =>
          exact absurd (ht ▸ List.getElem?_eq_getElem htlt) (by simp)
        | some pt =>
          obtain ⟨rawT, oldCT⟩ := pt
          cases hl : oldCT.label with
          | some labT =>
            rw [rewrite_step_reuse hk hj hf ht hl]
            exact rewrite_set_good hg hk ht hj hf hl rfl rfl
              (fun ℓ₀ h => by rw [hl] at h; injection h with h)
          | none =>
            rw [rewrite_step_fresh hk hj hf ht hl]
            exact rewrite_set_good hg hk ht hj hf rfl rfl rfl
              (fun ℓ₀ h => by rw [hl] at h; exact absurd h (by simp))

theorem rewrite_loop_good :
    ∀ (n : Nat) (ps : List (Instruction × CleanedInstruction)) (nli k : Nat)
      {ps₀ : List (Instruction × CleanedInstruction)},
      RewriteGood ps₀ k ps →
      RewriteGood ps₀ (k + n) (rewrite_loop ps nli (List.range' k n)).1 := by
  intro n
  induction n with
  | zero => intro ps nli k ps₀ hg; exact hg
  | succ n ih =>
    intro ps nli k ps₀ hg
    rw [List.range'_succ, rewrite_loop]
    have h1 : k + (n + 1) = (k + 1) + n := by omega
    rw [h1]
    exact ih _ _ _ (rewrite_step_good hg)

theorem rewrite_full_good {lines : List Line} {idxs : List Nat}
    {ps : List (Instruction × CleanedInstruction)}
    (hb : build_pairs lines idxs = some ps) (nli : Nat) :
    RewriteGood ps ps.length (rewrite_loop ps nli (List.range ps.length)).1 := by
  rw [List.range_eq_range']
  have h1 := rewrite_loop_good ps.length ps nli 0 (rewrite_good_init hb)
  rw [Nat.zero_add] at h1
  exact h1

theorem get_cleaned_function_eq {lines : List Line} {f : FunctionDefinition}
    {nli : Nat} {pairs : List (Instruction × CleanedInstruction)}
    (hb : build_pairs lines
      (List.range' (f.line_start_index + 1) (f.line_count - 1)) = some pairs) :
    get_cleaned_function lines f nli =
      some ⟨f.name,
        ((rewrite_loop pairs nli (List.range pairs.length)).1).map
          (fun p => p.2)⟩ := by
  simp [get_cleaned_function, hb]

theorem final_entry {final pairs : List (Instruction × CleanedInstruction)}
    (hfst : final.map (fun p => p.1) = pairs.map (fun p => p.1))
    {m : Nat} {p : Instruction × CleanedInstruction} (hp : pairs[m]? = some p) :
    ∃ pm, final[m]? = some pm ∧ pm.1 = p.1 := by
  have h1 := fst_eq_of_map_eq hfst m
  rw [hp] at h1
  cases hf : final[m]? with
  | none => rw [hf] at h1; simp at h1
  | some pm =>
    rw [hf] at h1
    simp only [Option.map_some'] at h1
    injection h1 with h1
    exact ⟨pm, rfl, h1⟩

/-- **C7** (corrected).  Within one function's cleaning, a jump's target is
the first body instruction whose raw offset token is string-equal to the
jump's operand text.  The target's cleaned instruction always ends up
carrying a label, and every jump resolving to that target shares that one
label (the label stored on the target).  The jump's own operand is
rewritten to that label — *except* when the jump is its own target: the
source performs the two `instruction_pairs[...] = ...` assignments in
order, so for `index = target_index` the second assignment overwrites the
first and the original operand text survives unrewritten. -/
theorem claim_C7_jump_labels {lines : List Line} {f : FunctionDefinition}
    {nli : Nat} {pairs : List (Instruction × CleanedInstruction)}
    {cf : CleanedFunction}
    (hb : build_pairs lines
      (List.range' (f.line_start_index + 1) (f.line_count - 1)) = some pairs)
    (hcf : get_cleaned_function lines f nli = some cf) :
    cf.instructions.length = pairs.length ∧
    ∀ (m t : Nat) (p : Instruction × CleanedInstruction),
      pairs[m]? = some p → is_jump p.1.operation = true →
      find_target pairs p.1.operands = some t →
      ∃ ℓ ct, cf.instructions[t]? = some ct ∧ ct.label = some ℓ ∧
        ∃ cm, cf.instructions[m]? = some cm ∧
          (m ≠ t → cm.operands = ℓ) ∧ (m = t → cm.operands = p.1.operands) := by
  rw [get_cleaned_function_eq hb] at hcf
  injection hcf with hcf
  have hinstr : cf.instructions =
      ((rewrite_loop pairs nli (List.range pairs.length)).1).map
        (fun p => p.2) := by
    rw [← hcf]
  obtain ⟨hlen, hfst, hop, hraw, hjump, hlab⟩ := rewrite_full_good hb nli
  refine ⟨?_, ?_⟩
  · rw [hinstr, List.length_map]
    exact hlen
  · intro m t p hp hjp hft
    obtain ⟨pm, hpm, hpm1⟩ := final_entry hfst hp
    have hmlt : m < pairs.length := getElem?_lt_len hp
    obtain ⟨pt, ℓ, hpt, hptl, hne, heq⟩ :=
      hjump m pm t hmlt hpm (by rw [hpm1]; exact hjp) (by rw [hpm1]; exact hft)
    refine ⟨ℓ, pt.2, ?_, hptl, pm.2, ?_, ?_, ?_⟩
    · rw [hinstr, List.getElem?_map, hpt]
      rfl
    · rw [hinstr, List.getElem?_map, hpm]
      rfl
    · intro hne2
      exact hne hne2
    · intro heq2
      have h3 := heq heq2
      rw [hpm1] at h3
      exact h3

/-- **C8** (confirmed).  A jump whose operand text equals no raw offset
token of any instruction of its own function is left with its operand text
unchanged in the cleaned function; every label present in the cleaned
output marks the target of some *resolved* jump, so an unresolvable jump
gives rise to no label anywhere; and no error is raised — the cleaner
still returns a value on any body that parses. -/
theorem claim_C8_unresolved_jump {lines : List Line} {f : FunctionDefinition}
    {nli : Nat} {pairs : List (Instruction × CleanedInstruction)}
    (hb : build_pairs lines
      (List.range' (f.line_start_index + 1) (f.line_count - 1)) = some pairs) :
    ∃ cf, get_cleaned_function lines f nli = some cf ∧
      (∀ (m : Nat) (p : Instruction × CleanedInstruction),
        pairs[m]? = some p → is_jump p.1.operation = true →
        find_target pairs p.1.operands = none →
        ∃ cm, cf.instructions[m]? = some cm ∧ cm.operands = p.1.operands) ∧
      (∀ (n : Nat) (cn : CleanedInstruction), cf.instructions[n]? = some cn →
        cn.label.isSome = true →
        ∃ (j : Nat) (q : Instruction × CleanedInstruction),
          pairs[j]? = some q ∧ is_jump q.1.operation = true ∧
          find_target pairs q.1.operands = some n) := by
  obtain ⟨hlen, hfst, hop, hraw, hjump, hlab⟩ := rewrite_full_good hb nli
  refine ⟨⟨f.name,
    ((rewrite_loop pairs nli (List.range pairs.length)).1).map (fun p => p.2)⟩,
    get_cleaned_function_eq hb, ?_, ?_⟩
  · intro m p hp hjp hft
    obtain ⟨pm, hpm, hpm1⟩ := final_entry hfst hp
    have h4 := hraw m pm hpm (Or.inr (Or.inr (by rw [hpm1]; exact hft)))
    refine ⟨pm.2, ?_, ?_⟩
    · show ((rewrite_loop pairs nli
        (List.range pairs.length)).1.map (fun p => p.2))[m]? = some pm.2
      rw [List.getElem?_map, hpm]
      rfl
    · rw [h4, hpm1]
  · intro n cn hcn hpl
    have hcn2 : (((rewrite_loop pairs nli
        (List.range pairs.length)).1)[n]?).map (fun p => p.2) = some cn := by
      rw [← List.getElem?_map]
      exact hcn
    cases hf2 : ((rewrite_loop pairs nli (List.range pairs.length)).1)[n]? with
    | none => rw [hf2] at hcn2; simp at hcn2
    | some pn =>
      rw [hf2] at hcn2
      simp only [Option.map_some'] at hcn2
      injection hcn2 with hcn2
      rw [← hcn2] at hpl
      obtain ⟨j, q, hjk, hq, hqj, hqt⟩ := hlab n pn hf2 hpl
      obtain ⟨qp, hqp, hqp1⟩ := final_entry hfst.symm hq
      exact ⟨j, qp, hqp, by rw [hqp1]; exact hqj, by rw [hqp1]; exact hqt⟩

/-- Witness for C7: in `f: / 0: jmp 1 / 1: ret`, the jump at index 0
resolves to index 1; the cleaned target carries label `$L0` and the jump
operand is rewritten to `$L0`. -/
theorem claim_C7_jump_labels_witness :
    build_pairs (["f:", "  0: jmp 1", "  1: ret", ""].map String.toList)
        (List.range' 1 2) =
      some [(⟨"0".toList, "jmp".toList, "1".toList⟩,
             ⟨none, "jmp".toList, "1".toList⟩),
            (⟨"1".toList, "ret".toList, "".toList⟩,
             ⟨none, "ret".toList, "".toList⟩)] ∧
    get_cleaned_function (["f:", "  0: jmp 1", "  1: ret", ""].map String.toList)
        ⟨"f".toList, 0, 3⟩ 0 =
      some ⟨"f".toList,
        [⟨none, "jmp".toList, "$L0".toList⟩,
         ⟨some "$L0".toList, "ret".toList, "".toList⟩]⟩ ∧
    (([⟨none, "jmp".toList, "$L0".toList⟩,
       ⟨some "$L0".toList, "ret".toList, "".toList⟩] :
        List CleanedInstruction).length =
      ([(⟨"0".toList, "jmp".toList, "1".toList⟩,
         ⟨none, "jmp".toList, "1".toList⟩),
        (⟨"1".toList, "ret".toList, "".toList⟩,
         ⟨none, "ret".toList, "".toList⟩)] :
        List (Instruction × CleanedInstruction)).length ∧
     ∀ (m t : Nat) (p : Instruction × CleanedInstruction),
       ([(⟨"0".toList, "jmp".toList, "1".toList⟩,
          ⟨none, "jmp".toList, "1".toList⟩),
         (⟨"1".toList, "ret".toList, "".toList⟩,
          ⟨none, "ret".toList, "".toList⟩)] :
          List (Instruction × CleanedInstruction))[m]? = some p →
       is_jump p.1.operation = true →
       find_target
         [(⟨"0".toList, "jmp".toList, "1".toList⟩,
           ⟨none, "jmp".toList, "1".toList⟩),
          (⟨"1".toList, "ret".toList, "".toList⟩,
           ⟨none, "ret".toList, "".toList⟩)] p.1.operands = some t →
       ∃ ℓ ct,
         ([⟨none, "jmp".toList, "$L0".toList⟩,
           ⟨some "$L0".toList, "ret".toList, "".toList⟩] :
            List CleanedInstruction)[t]? = some ct ∧ ct.label = some ℓ ∧
         ∃ cm,
           ([⟨none, "jmp".toList, "$L0".toList⟩,
             ⟨some "$L0".toList, "ret".toList, "".toList⟩] :
              List CleanedInstruction)[m]? = some cm ∧
           (m ≠ t → cm.operands = ℓ) ∧ (m = t → cm.operands = p.1.operands)) :=
  ⟨by decide, by decide,
    @claim_C7_jump_labels
      (["f:", "  0: jmp 1", "  1: ret", ""].map String.toList)
      ⟨"f".toList, 0, 3⟩ 0
      [(⟨"0".toList, "jmp".toList, "1".toList⟩,
        ⟨none, "jmp".toList, "1".toList⟩),
       (⟨"1".toList, "ret".toList, "".toList⟩,
        ⟨none, "ret".toList, "".toList⟩)]
      ⟨"f".toList,
        [⟨none, "jmp".toList, "$L0".toList⟩,
         ⟨some "$L0".toList, "ret".toList, "".toList⟩]⟩
      (by decide) (by decide)⟩

/-- Counterexample for the literal C7 claim: a self-jump (`0: jmp 0`)
resolves to itself and receives label `$L0`, but its operand is *not*
rewritten to the label — the second in-place pair assignment of the source
overwrites the first, so the original operand text `0` survives. -/
theorem claim_C7_counterexample :
    get_cleaned_function (["f:", "  0: jmp 0", ""].map String.toList)
        ⟨"f".toList, 0, 2⟩ 0 =
      some ⟨"f".toList, [⟨some "$L0".toList, "jmp".toList, "0".toList⟩]⟩ ∧
    "0".toList ≠ "$L0".toList := by decide

/-- Witness for C8: in `f: / 0: jmp 9` no instruction has offset token
`9`; the cleaner succeeds, the operand stays `9`, and no label exists
anywhere in the cleaned function. -/
theorem claim_C8_unresolved_jump_witness :
    build_pairs (["f:", "  0: jmp 9", ""].map String.toList)
        (List.range' 1 1) =
      some [(⟨"0".toList, "jmp".toList, "9".toList⟩,
             ⟨none, "jmp".toList, "9".toList⟩)] ∧
    (∃ cf, get_cleaned_function (["f:", "  0: jmp 9", ""].map String.toList)
        ⟨"f".toList, 0, 2⟩ 0 = some cf ∧
      (∀ (m : Nat) (p : Instruction × CleanedInstruction),
        ([(⟨"0".toList, "jmp".toList, "9".toList⟩,
           ⟨none, "jmp".toList, "9".toList⟩)] :
           List (Instruction × CleanedInstruction))[m]? = some p →
        is_jump p.1.operation = true →
        find_target
          [(⟨"0".toList, "jmp".toList, "9".toList⟩,
            ⟨none, "jmp".toList, "9".toList⟩)] p.1.operands = none →
        ∃ cm, cf.instructions[m]? = some cm ∧ cm.operands = p.1.operands) ∧
      (∀ (n : Nat) (cn : CleanedInstruction), cf.instructions[n]? = some cn →
        cn.label.isSome = true →
        ∃ (j : Nat) (q : Instruction × CleanedInstruction),
          ([(⟨"0".toList, "jmp".toList, "9".toList⟩,
             ⟨none, "jmp".toList, "9".toList⟩)] :
             List (Instruction × CleanedInstruction))[j]? = some q ∧
          is_jump q.1.operation = true ∧
          find_target
            [(⟨"0".toList, "jmp".toList, "9".toList⟩,
              ⟨none, "jmp".toList, "9".toList⟩)] q.1.operands = some n)) :=
  ⟨by decide,
    @claim_C8_unresolved_jump
      (["f:", "  0: jmp 9", ""].map String.toList)
      ⟨"f".toList, 0, 2⟩ 0
      [(⟨"0".toList, "jmp".toList, "9".toList⟩,
        ⟨none, "jmp".toList, "9".toList⟩)]
      (by decide)⟩

end RunCpp











